import Mathlib

/-!
Verification of the segmentation-search / dictionary-validation core of the
TesseractOCR-For-Mac repository, as a shallow embedding in Lean 4.

Each C++ function that a claim depends on is translated into an executable
Lean definition operating on explicit state records; theorems about these
definitions settle the claims.  Components of the repository whose sources
are not present (for example `trie.cpp`, `ambigs.h`, `elst.h`) are modelled
from the natural-language specification; such definitions carry a doc
comment starting with the words Modelled from the spec.
-/

set_option maxRecDepth 4096

namespace TessCore

/-! ### Hyphen continuation state (src/source/dict/hyphen.cpp)

The `Dict` members relevant to `reset_hyphen_vars` and `set_hyphen_word`:
`last_word_on_line_ : bool`, `hyphen_word_ : WERD_CHOICE*` (NULL = none),
`hyphen_active_dawgs_` and `hyphen_constraints_ : DawgInfoVector`. -/

/-- Modelled from the spec: one `DawgInfo` entry of a `DawgInfoVector`
(a dawg index paired with an edge reference); `dawg.h` is not in the
sources, and the hyphen code only copies these vectors wholesale. -/
structure DawgInfo where
  dawg_index : Nat
  ref : Int
deriving DecidableEq, Repr

/-- Modelled from the spec: the slice of `WERD_CHOICE` (ratngs.h, absent)
used by the hyphen code: the unichar id sequence and the rating.
Ratings are `float` in C++; they are modelled as integers, since the
hyphen logic only compares them. -/
structure WERD_CHOICE where
  unichar_ids : List Nat
  rating : Int
deriving DecidableEq, Repr

/-- Modelled from the spec: `WERD_CHOICE::make_bad` gives a fresh word the
worst possible rating (`MAX_FLOAT32`), modelled by a large constant. -/
def MAX_FLOAT32_RATING : Int := 2 ^ 127

/-- Modelled from the spec: a freshly constructed `WERD_CHOICE` after
`make_bad()`: empty and carrying the worst rating. -/
def badWerdChoice : WERD_CHOICE :=
  { unichar_ids := [], rating := MAX_FLOAT32_RATING }

/-- Modelled from the spec: `WERD_CHOICE::remove_last_unichar_id` strips
the trailing unichar id (the hyphen). -/
def WERD_CHOICE.remove_last_unichar_id (w : WERD_CHOICE) : WERD_CHOICE :=
  { w with unichar_ids := w.unichar_ids.dropLast }

/-- The hyphen-related state of `tesseract::Dict`. -/
structure DictHyphen where
  last_word_on_line_ : Bool
  hyphen_word_ : Option WERD_CHOICE
  hyphen_active_dawgs_ : List DawgInfo
  hyphen_constraints_ : List DawgInfo
deriving DecidableEq, Repr

/-- Embedding of `Dict::reset_hyphen_vars` (hyphen.cpp lines 34-48):
unless the stored flag is true and the argument false, a non-NULL
`hyphen_word_` is deleted and both vectors cleared; the flag is always
set to the argument. -/
def reset_hyphen_vars (d : DictHyphen) (last_word_on_line : Bool) : DictHyphen :=
  let d1 :=
    if ¬(d.last_word_on_line_ = true ∧ last_word_on_line = false) then
      match d.hyphen_word_ with
      | some _ =>
          { d with hyphen_word_ := none,
                   hyphen_active_dawgs_ := [],
                   hyphen_constraints_ := [] }
      | none => d
    else d
  { d1 with last_word_on_line_ := last_word_on_line }

/-- Embedding of `Dict::set_hyphen_word` (hyphen.cpp lines 52-68): if no
word is stored, a bad-rated placeholder is materialised; the candidate
replaces the stored word (with its trailing hyphen removed, and the two
vectors copied) exactly when the stored rating is worse. -/
def set_hyphen_word (d : DictHyphen) (word : WERD_CHOICE)
    (active_dawgs constraints : List DawgInfo) : DictHyphen :=
  let hw := match d.hyphen_word_ with
    | none => badWerdChoice
    | some w => w
  if hw.rating > word.rating then
    { d with hyphen_word_ := some word.remove_last_unichar_id,
             hyphen_active_dawgs_ := active_dawgs,
             hyphen_constraints_ := constraints }
  else
    { d with hyphen_word_ := some hw }

/-! ### Trie (src/source/dict/trie.h)

Edge references (`EDGE_REF`) are 64-bit integers; `NO_EDGE` is -1.
The layout of a Trie `EDGE_REF` (trie.h lines 136-148): bits
[0, flag_start_bit_) hold the edge index inside the node's forward-edge
vector, the bits from `flag_start_bit_` up hold the node index. -/

/-- Sentinel edge reference, from dawg.h (`NO_EDGE = -1`). -/
def NO_EDGE : Int := -1

/-- Sentinel unichar id (`INVALID_UNICHAR_ID = -1`). -/
def INVALID_UNICHAR_ID : Int := -1

/-- One decoded `EDGE_RECORD` of a `TRIE_NODE_RECORD`: the packed 64-bit
record is modelled by its fields (next node, word-end flag, direction
flag, unichar id), which is what `link_edge` packs and the
`*_from_edge_rec` accessors unpack. -/
structure EdgeRec where
  next_node : Int
  word_end : Bool
  backward : Bool
  unichar_id : Int
deriving DecidableEq, Repr

/-- A `TRIE_NODE_RECORD`: a vector of forward and of backward edges. -/
structure TrieNodeRecord where
  forward_edges : List EdgeRec
  backward_edges : List EdgeRec
deriving DecidableEq, Repr

/-- The `tesseract::Trie` state: node vector, total edge count (forward
plus backward), configured edge budget, and the bit position splitting
an `EDGE_REF` into edge index and node index. -/
structure Trie where
  nodes_ : List TrieNodeRecord
  num_edges_ : Nat
  max_num_edges_ : Nat
  flag_start_bit_ : Nat
deriving DecidableEq, Repr

/-- Embedding of `Trie::deref_edge_ref` (trie.h lines 153-159): decode
the edge and node indices from the reference and look the record up.
The C++ code assumes valid indices; out-of-range lookups give `none`
where the C++ vector access would be undefined. -/
def Trie.deref_edge_ref (t : Trie) (edge_ref : Int) : Option EdgeRec :=
  if edge_ref < 0 then none
  else
    let n := edge_ref.toNat
    let edge_index := n % 2 ^ t.flag_start_bit_
    let node_index := n / 2 ^ t.flag_start_bit_
    match t.nodes_.get? node_index with
    | none => none
    | some node_rec => node_rec.forward_edges.get? edge_index

/-- Embedding of `Trie::next_node` (trie.h lines 98-101). -/
def Trie.next_node (t : Trie) (edge_ref : Int) : Int :=
  if edge_ref = NO_EDGE ∨ t.num_edges_ = 0 then NO_EDGE
  else
    match t.deref_edge_ref edge_ref with
    | some e => e.next_node
    | none => NO_EDGE

/-- Embedding of `Trie::end_of_word` (trie.h lines 107-110). -/
def Trie.end_of_word (t : Trie) (edge_ref : Int) : Bool :=
  if edge_ref = NO_EDGE ∨ t.num_edges_ = 0 then false
  else
    match t.deref_edge_ref edge_ref with
    | some e => e.word_end
    | none => false

/-- Embedding of `Trie::edge_letter` (trie.h lines 113-116). -/
def Trie.edge_letter (t : Trie) (edge_ref : Int) : Int :=
  if edge_ref = NO_EDGE ∨ t.num_edges_ = 0 then INVALID_UNICHAR_ID
  else
    match t.deref_edge_ref edge_ref with
    | some e => e.unichar_id
    | none => INVALID_UNICHAR_ID

/-- The Trie constructor state (trie.h lines 62-69): node 0 allocated,
no edges, the given edge budget. -/
def Trie.empty (max_num_edges : Nat) (flag_start_bit : Nat) : Trie :=
  { nodes_ := [{ forward_edges := [], backward_edges := [] }],
    num_edges_ := 0,
    max_num_edges_ := max_num_edges,
    flag_start_bit_ := flag_start_bit }

/-- Index of the first forward edge out of `node` labelled `unichar_id`
(the lookup inside `Trie::edge_char_of`, trie.cpp being absent the
search is by letter as the spec describes the mutable trie). -/
def Trie.findForward (t : Trie) (node : Nat) (unichar_id : Int) : Option Nat :=
  match t.nodes_.get? node with
  | none => none
  | some rec_ => rec_.forward_edges.findIdx? (fun e => e.unichar_id = unichar_id)

/-- Next-node target of forward edge `i` out of `node`, 0 if absent. -/
def Trie.forwardTarget (t : Trie) (node i : Nat) : Nat :=
  match t.nodes_.get? node with
  | none => 0
  | some rec_ =>
      match rec_.forward_edges.get? i with
      | none => 0
      | some e => e.next_node.toNat

/-- Modelled from the spec: `Trie::new_dawg_node` appends a fresh empty
node and returns its index. -/
def Trie.newNode (t : Trie) : Trie × Nat :=
  ({ t with nodes_ := t.nodes_ ++ [{ forward_edges := [], backward_edges := [] }] },
   t.nodes_.length)

/-- Replace node `n`'s record using `f`. -/
def Trie.modifyNode (t : Trie) (n : Nat) (f : TrieNodeRecord → TrieNodeRecord) : Trie :=
  { t with nodes_ := t.nodes_.modify f n }

/-- Modelled from the spec: `Trie::add_new_edge` adds a forward edge
from `node1` to `node2` and the matching backward edge, growing
`num_edges_` by two (trie.h lines 214-220 compose two
`add_edge_linkage` calls). -/
def Trie.addNewEdge (t : Trie) (node1 node2 : Nat) (word_end : Bool)
    (unichar_id : Int) : Trie :=
  let t1 := t.modifyNode node1 (fun r =>
    { r with forward_edges := r.forward_edges ++
        [{ next_node := Int.ofNat node2, word_end := word_end,
           backward := false, unichar_id := unichar_id }] })
  let t2 := t1.modifyNode node2 (fun r =>
    { r with backward_edges := r.backward_edges ++
        [{ next_node := Int.ofNat node1, word_end := word_end,
           backward := true, unichar_id := unichar_id }] })
  { t2 with num_edges_ := t2.num_edges_ + 2 }

/-- Modelled from the spec: `Trie::add_word_ending` marks an existing
forward edge (and conceptually its backward twin) as a word end. -/
def Trie.addWordEnding (t : Trie) (node i : Nat) : Trie :=
  t.modifyNode node (fun r =>
    { r with forward_edges :=
        r.forward_edges.modify (fun e => { e with word_end := true }) i })

/-- Modelled from the spec: the body of `Trie::add_word_to_dawg`
without the edge budget: walk the trie from `node`, following existing
edges by letter and creating node and edge pairs for missing ones; the
final letter's edge is marked word-end. -/
def Trie.addWordRaw (t : Trie) (node : Nat) : List Int → Trie
  | [] => t
  | [c] =>
      match t.findForward node c with
      | some i => t.addWordEnding node i
      | none =>
          let (t1, m) := t.newNode
          t1.addNewEdge node m true c
  | c :: c2 :: rest =>
      match t.findForward node c with
      | some i => Trie.addWordRaw t (t.forwardTarget node i) (c2 :: rest)
      | none =>
          let (t1, m) := t.newNode
          let t2 := t1.addNewEdge node m false c
          Trie.addWordRaw t2 m (c2 :: rest)

/-- Modelled from the spec: `Trie::add_word_to_dawg` with the edge
budget of trie.h lines 58-61: if the insertion would leave the trie
with more edges than `max_num_edges_`, all the edges are cleared and
the insertion restarts from the emptied trie. -/
def Trie.add_word_to_dawg (t : Trie) (word : List Int) : Trie :=
  let t' := t.addWordRaw 0 word
  if t'.num_edges_ > t.max_num_edges_ then
    (Trie.empty t.max_num_edges_ t.flag_start_bit_).addWordRaw 0 word
  else t'

/-! ### Ambiguity table (src/source/ccutil/ambigs.cpp)

`ambigs.h` is not in the sources; the `AmbigType` codes, `MAX_AMBIG_SIZE`
and the comparator are modelled from the spec, the functions below are
embedded from ambigs.cpp. -/

/-- Modelled from the spec: `AmbigType` code `NOT_AMBIG`. -/
def NOT_AMBIG : Int := 0

/-- Modelled from the spec: `AmbigType` code `REPLACE_AMBIG`
(the spec's dangerous-replace class). -/
def REPLACE_AMBIG : Int := 1

/-- Modelled from the spec: `AmbigType` code `DEFINITE_AMBIG`. -/
def DEFINITE_AMBIG : Int := 2

/-- Modelled from the spec: `AmbigType` code `CASE_AMBIG`
(the spec's case-only class). -/
def CASE_AMBIG : Int := 4

/-- Modelled from the spec: the fixed maximum n-gram length
`MAX_AMBIG_SIZE` of an ambiguity rule. -/
def MAX_AMBIG_SIZE : Int := 10

/-- Modelled from the spec: the slice of `UNICHARSET` the ambiguity
loader uses: the registered unichar strings in insertion order (a
unichar's id is its index), the id-level case-folding map, and the set
of ids flagged as n-grams. -/
structure UNICHARSET where
  chars : List String
  lower : Nat → Nat
  ngram_flags : List Nat

/-- `UNICHARSET::contains_unichar`. -/
def UNICHARSET.contains_unichar (u : UNICHARSET) (s : String) : Bool :=
  u.chars.contains s

/-- `UNICHARSET::unichar_to_id`: index of the string among the
registered unichars (the C++ code only calls it on registered ones). -/
def UNICHARSET.unichar_to_id (u : UNICHARSET) (s : String) : Nat :=
  u.chars.indexOf s

/-- `UNICHARSET::to_lower` on unichar ids. -/
def UNICHARSET.to_lower (u : UNICHARSET) (i : Nat) : Nat := u.lower i

/-- `UNICHARSET::unichar_insert`: registering an already-known unichar
is a no-op, otherwise the string gets the next free id. -/
def UNICHARSET.unichar_insert (u : UNICHARSET) (s : String) : UNICHARSET :=
  if u.chars.contains s then u else { u with chars := u.chars ++ [s] }

/-- `UNICHARSET::set_isngram`. -/
def UNICHARSET.set_isngram (u : UNICHARSET) (i : Nat) : UNICHARSET :=
  { u with ngram_flags := u.ngram_flags ++ [i] }

/-- An `AmbigSpec` (ambigs.h, modelled from the spec): wrong n-gram,
replacement id, per-position fragment ids, type code, and the length
field kept by `UnicharIdArrayUtils::copy`. -/
structure AmbigSpec where
  wrong_ngram : List Nat
  correct_ngram_id : Nat
  correct_fragments : List Nat
  ambig_type : Int
  wrong_ngram_size : Nat
deriving DecidableEq, Repr

/-- Modelled from the spec: `UnicharIdArrayUtils::compare` on
INVALID-terminated id arrays, the order under which the per-character
rule lists are kept sorted: element-wise comparison, a terminated
(shorter) array comparing below any extension. -/
def compareNgram : List Nat → List Nat → Int
  | [], [] => 0
  | [], _ :: _ => -1
  | _ :: _, [] => 1
  | a :: as_, b :: bs =>
      if a < b then -1 else if b < a then 1 else compareNgram as_ bs

/-- `AmbigSpec::compare_ambig_specs` (modelled from the spec): compares
the full wrong n-grams. -/
def compare_ambig_specs (s1 s2 : AmbigSpec) : Int :=
  compareNgram s1.wrong_ngram s2.wrong_ngram

/-- Modelled from the spec: `ELIST::add_sorted` with
`compare_ambig_specs`: inserts the new spec at its sorted position. -/
def add_sorted (a : AmbigSpec) : List AmbigSpec → List AmbigSpec
  | [] => [a]
  | b :: t => if compare_ambig_specs a b < 0 then a :: b :: t else b :: add_sorted a t

/-- Value of the longest leading run of decimal digits, accumulating. -/
def digitsGo (acc : Nat) : List Char → Nat
  | [] => acc
  | c :: rest => if c.isDigit then digitsGo (acc * 10 + (c.toNat - 48)) rest else acc

/-- Value of the longest nonempty leading run of decimal digits. -/
def digitsPre : List Char → Option Nat
  | [] => none
  | c :: rest => if c.isDigit then some (digitsGo (c.toNat - 48) rest) else none

/-- Semantics of `sscanf(token, "%d", &x)` on a delimiter-free token:
an optional sign followed by at least one digit parses (trailing
non-digits are ignored, as scanf stops at the first mismatch); anything
else reports zero conversions. -/
def sscanfInt (s : String) : Option Int :=
  match s.toList with
  | [] => none
  | c :: rest =>
      if c = '-' then (digitsPre rest).map (fun n => -(Int.ofNat n))
      else if c = '+' then (digitsPre rest).map Int.ofNat
      else (digitsPre (c :: rest)).map Int.ofNat

/-- The token-consuming loop of `ParseAmbiguityLine` for the wrong
n-gram (ambigs.cpp lines 144-152): reads exactly `n` tokens, failing if
tokens run out or one is not in the unicharset. -/
def takeIds (u : UNICHARSET) : Nat → List String → Option (List Nat × List String)
  | 0, rest => some ([], rest)
  | _ + 1, [] => none
  | n + 1, tok :: rest =>
      if u.contains_unichar tok then
        match takeIds u n rest with
        | some (ids, rest') => some (u.unichar_to_id tok :: ids, rest')
        | none => none
      else none

/-- The replacement-consuming loop of `ParseAmbiguityLine` (ambigs.cpp
lines 165-173): reads `n` tokens, concatenating them into the
replacement string, failing if tokens run out or one is unknown. -/
def takeRepl (u : UNICHARSET) : Nat → List String → Option (String × List String)
  | 0, rest => some ("", rest)
  | _ + 1, [] => none
  | n + 1, tok :: rest =>
      if u.contains_unichar tok then
        match takeRepl u n rest with
        | some (s, rest') => some (tok ++ s, rest')
        | none => none
      else none

/-- A successfully parsed ambiguity rule line. -/
structure ParsedRule where
  testIds : List Nat
  replPartSize : Nat
  replStr : String
  rule_type : Int
deriving DecidableEq, Repr

/-- Embedding of `UnicharAmbigs::ParseAmbiguityLine` (ambigs.cpp lines
128-195) over a tokenised line: wrong-n-gram count (positive, at most
`MAX_AMBIG_SIZE`), that many known unichars, replacement count (same
bounds), that many known unichars concatenated, and, for file versions
above 0, a numeric type field; `none` models returning false. -/
def parseAmbiguityLine (version : Int) (u : UNICHARSET) (tokens : List String) :
    Option ParsedRule :=
  match tokens with
  | [] => none
  | t0 :: rest =>
    match sscanfInt t0 with
    | none => none
    | some n =>
      if n ≤ 0 then none
      else if n > MAX_AMBIG_SIZE then none
      else match takeIds u n.toNat rest with
        | none => none
        | some (ids, rest1) =>
          match rest1 with
          | [] => none
          | t1 :: rest2 =>
            match sscanfInt t1 with
            | none => none
            | some m =>
              if m ≤ 0 then none
              else if m > MAX_AMBIG_SIZE then none
              else match takeRepl u m.toNat rest2 with
                | none => none
                | some (repl, rest3) =>
                  if version > 0 then
                    match rest3 with
                    | [] => none
                    | t2 :: _ =>
                      match sscanfInt t2 with
                      | none => none
                      | some ty =>
                          some { testIds := ids, replPartSize := m.toNat,
                                 replStr := repl, rule_type := ty }
                  else
                    some { testIds := ids, replPartSize := m.toNat,
                           replStr := repl, rule_type := NOT_AMBIG }

/-- Modelled from the spec: `CHAR_FRAGMENT::to_string(repl, i, n)`, the
printed name of fragment `i` of `n` of the replacement n-gram. -/
def fragToString (repl : String) (i n : Nat) : String :=
  "|" ++ repl ++ "|" ++ toString i ++ "|" ++ toString n

/-- The fragment-registration loop of `InsertIntoTable` (ambigs.cpp
lines 230-242), counting down `k` remaining positions of `n` total: for
a 1-to-1 rule the fragment is the replacement id itself, otherwise each
fragment string is inserted into the unicharset and its id recorded. -/
def mkFragmentsGo (cid : Nat) (repl : String) (n : Nat) :
    UNICHARSET → Nat → UNICHARSET × List Nat
  | u, 0 => (u, [])
  | u, k + 1 =>
      if n = 1 then
        let r := mkFragmentsGo cid repl n u k
        (r.1, cid :: r.2)
      else
        let fs := fragToString repl (n - (k + 1)) n
        let u1 := u.unichar_insert fs
        let r := mkFragmentsGo cid repl n u1 k
        (r.1, u1.unichar_to_id fs :: r.2)

/-- Embedding of `UnicharAmbigs::InsertIntoTable` (ambigs.cpp lines
197-252): sets the spec type (overriding to `CASE_AMBIG` for a 1-to-1
rule whose two unichars agree under `to_lower`), registers the
replacement n-gram (flagging it as an n-gram when longer than one
token) and its fragments, and inserts the spec, sorted, into the list
indexed by the first wrong unichar id.  Returns the updated table, the
updated unicharset and the constructed spec. -/
def insertIntoTable (table : Nat → List AmbigSpec) (testIds : List Nat)
    (replPartSize : Nat) (replStr : String) (rule_type : Int) (u : UNICHARSET) :
    (Nat → List AmbigSpec) × UNICHARSET × AmbigSpec :=
  let type1 : Int :=
    if testIds.length = 1 ∧ replPartSize = 1 ∧
        u.to_lower (testIds.headD 0) = u.to_lower (u.unichar_to_id replStr)
    then CASE_AMBIG else rule_type
  let u1 := u.unichar_insert replStr
  let cid := u1.unichar_to_id replStr
  let u2 := if replPartSize > 1 then u1.set_isngram cid else u1
  let fr := mkFragmentsGo cid replStr testIds.length u2 testIds.length
  let spec : AmbigSpec :=
    { wrong_ngram := testIds, wrong_ngram_size := testIds.length,
      correct_ngram_id := cid, correct_fragments := fr.2, ambig_type := type1 }
  let key := testIds.headD 0
  (fun k => if k = key then add_sorted spec (table k) else table k, fr.1, spec)

/-- The `UnicharAmbigs` state built by `LoadUnicharAmbigs`, together
with the evolving unicharset. -/
structure LoadState where
  replace_ambigs_ : Nat → List AmbigSpec
  dang_ambigs_ : Nat → List AmbigSpec
  one_to_one_definite_ambigs_ : Nat → List Nat
  unicharset : UNICHARSET

/-- The per-rule body of the `LoadUnicharAmbigs` loop (ambigs.cpp lines
84-99): insert into `replace_ambigs_` for a declared `REPLACE_AMBIG`
rule, otherwise into `dang_ambigs_`; then, when the
`use_definite_ambigs_for_classifier` flag is set and the rule is a
1-to-1 `DEFINITE_AMBIG`, append the replacement id to the side table
entry of the wrong unichar id. -/
def processRule (useDef : Bool) (st : LoadState) (r : ParsedRule) : LoadState :=
  let tbl := if r.rule_type = REPLACE_AMBIG then st.replace_ambigs_ else st.dang_ambigs_
  let res := insertIntoTable tbl r.testIds r.replPartSize r.replStr r.rule_type st.unicharset
  let st1 :=
    if r.rule_type = REPLACE_AMBIG then
      { st with replace_ambigs_ := res.1, unicharset := res.2.1 }
    else
      { st with dang_ambigs_ := res.1, unicharset := res.2.1 }
  if useDef = true ∧ r.testIds.length = 1 ∧ r.replPartSize = 1 ∧
      r.rule_type = DEFINITE_AMBIG then
    { st1 with one_to_one_definite_ambigs_ := fun k =>
        if k = r.testIds.headD 0
        then st1.one_to_one_definite_ambigs_ k ++ [res.2.2.correct_ngram_id]
        else st1.one_to_one_definite_ambigs_ k }
  else st1

/-- One iteration of the `LoadUnicharAmbigs` line loop (ambigs.cpp
lines 75-100): a line that fails to parse is skipped. -/
def processLine (useDef : Bool) (version : Int) (st : LoadState)
    (line : List String) : LoadState :=
  match parseAmbiguityLine version st.unicharset line with
  | none => st
  | some r => processRule useDef st r

/-- The `LoadUnicharAmbigs` line loop over a list of tokenised lines. -/
def loadLines (useDef : Bool) (version : Int) :
    LoadState → List (List String) → LoadState
  | st, [] => st
  | st, l :: rest => loadLines useDef version (processLine useDef version st l) rest

/-- The state at the start of `LoadUnicharAmbigs`: empty tables. -/
def initLoadState (u : UNICHARSET) : LoadState :=
  { replace_ambigs_ := fun _ => [],
    dang_ambigs_ := fun _ => [],
    one_to_one_definite_ambigs_ := fun _ => [],
    unicharset := u }

/-! ### Sortedness and placement of the ambiguity tables -/

/-- The per-character rule lists are sorted when every adjacent pair is
ordered by `compare_ambig_specs`. -/
def SortedSpecs (l : List AmbigSpec) : Prop :=
  l.Chain' (fun x y => compare_ambig_specs x y ≤ 0)

/-- A table is well-formed when every stored spec sits in the list
indexed by the first unichar id of its wrong n-gram and every list is
sorted. -/
def tableOk (t : Nat → List AmbigSpec) : Prop :=
  ∀ i, (∀ s ∈ t i, s.wrong_ngram.head? = some i) ∧ SortedSpecs (t i)

/-- Both rule tables of a load state are well-formed. -/
def tablesOk (st : LoadState) : Prop :=
  tableOk st.replace_ambigs_ ∧ tableOk st.dang_ambigs_

/-- A rule's spec lands in `replace_ambigs_` exactly for declared type
`REPLACE_AMBIG` and in `dang_ambigs_` otherwise, inserted sorted at the
first wrong unichar id, leaving the other table untouched. -/
def placedOk (useDef : Bool) (st : LoadState) (r : ParsedRule) : Prop :=
  let res := insertIntoTable
    (if r.rule_type = REPLACE_AMBIG then st.replace_ambigs_ else st.dang_ambigs_)
    r.testIds r.replPartSize r.replStr r.rule_type st.unicharset
  let st' := processRule useDef st r
  if r.rule_type = REPLACE_AMBIG then
    (∀ k, st'.dang_ambigs_ k = st.dang_ambigs_ k) ∧
    (∀ k, st'.replace_ambigs_ k =
      if k = r.testIds.headD 0 then add_sorted res.2.2 (st.replace_ambigs_ k)
      else st.replace_ambigs_ k)
  else
    (∀ k, st'.replace_ambigs_ k = st.replace_ambigs_ k) ∧
    (∀ k, st'.dang_ambigs_ k =
      if k = r.testIds.headD 0 then add_sorted res.2.2 (st.dang_ambigs_ k)
      else st.dang_ambigs_ k)

/-! ### Fragment rating cache (src/source/wordrec/pieces.cpp, get_piece_rating)

The ratings `MATRIX` (matrix.h is absent) stores one `BLOB_CHOICE_LIST*`
per (start, end) pair, initialised to `NOT_CLASSIFIED` (the NULL
pointer); it is modelled as an association list where `NOT_CLASSIFIED`
is absence.  `classify_piece` is abstracted as an opaque classifier
function, as the spec's classifier interface prescribes, and every
invocation of it is recorded in an instrumentation trace. -/

/-- Lookup in the modelled ratings matrix (`MATRIX::get`). -/
def mget {α : Type} : List ((Nat × Nat) × α) → Nat × Nat → Option α
  | [], _ => none
  | (q, c) :: t, p => if q = p then some c else mget t p

/-- A ratings matrix paired with the trace of classifier invocations
(the instrumented counting classifier of the spec). -/
structure PieceState (α : Type) where
  ratings : List ((Nat × Nat) × α)
  calls : List (Nat × Nat)
deriving DecidableEq, Repr

/-- The state at `record_piece_ratings` time for a word with no prior
matches: an all-`NOT_CLASSIFIED` matrix and no classifier calls. -/
def emptyPieceState (α : Type) : PieceState α :=
  { ratings := [], calls := [] }

/-- Embedding of `Wordrec::get_piece_rating` (pieces.cpp lines 323-337):
a stored rating is returned as is; `NOT_CLASSIFIED` triggers one
`classify_piece` invocation (recorded in the trace) whose result is
stored with `ratings->put` and returned. -/
def get_piece_rating {α : Type} (classify : Nat → Nat → α)
    (st : PieceState α) (s e : Nat) : α × PieceState α :=
  match mget st.ratings (s, e) with
  | some choices => (choices, st)
  | none =>
      let choices := classify s e
      (choices,
       { ratings := ((s, e), choices) :: st.ratings,
         calls := st.calls ++ [(s, e)] })

/-- A sequence of `get_piece_rating` requests as issued by the search
states of one word's segmentation search. -/
def runRequests {α : Type} (classify : Nat → Nat → α) :
    PieceState α → List (Nat × Nat) → PieceState α
  | st, [] => st
  | st, p :: ps => runRequests classify (get_piece_rating classify st p.1 p.2).2 ps

/-- The cache invariant: the invocation trace has no duplicates and
records exactly the pairs whose matrix entry is filled. -/
def cacheInv {α : Type} (st : PieceState α) : Prop :=
  st.calls.Nodup ∧ ∀ p, p ∈ st.calls ↔ (mget st.ratings p).isSome

/-- All upper-triangular pairs (start ≤ end < N) of one word. -/
def triList (N : Nat) : List (Nat × Nat) :=
  (List.range N).flatMap (fun e => (List.range (e + 1)).map (fun s => (s, e)))

/-! ### Joining and breaking fragment chains (src/source/wordrec/pieces.cpp)

`TBLOB`, `TESSLINE` and `EDGEPT` (blobs.h, absent) are pointer-linked:
a blob chain, each blob owning a NULL-terminated chain of outlines,
each outline a circular ring of edge points carrying a hidden flag.
The model keeps the mutable links explicit: `onext` is the
`TESSLINE::next` pointer (by outline id), `hidden` the per-edge-point
flag, and `blobs` the blob chain, each entry the blob's
`outlines` head pointer.  A `SPLIT` of a seam is modelled by the list
of edge-point ids its hide/reveal walk visits: the walk follows the
`EDGEPT::next` ring, which neither `hide_edge` nor `reveal_edge`
modifies, so `hide_seam` and `reveal_seam` touch the same fixed set. -/

/-- The mutable state `join_pieces`/`break_pieces` operate on. -/
structure BlobWorld where
  onext : Nat → Option Nat
  hidden : Nat → Bool
  blobs : List (Option Nat)

/-- One `SPLIT` of a seam: the edge points visited by
`hide_edge_pair`/`reveal_edge_pair` on its two point arcs. -/
structure SplitRec where
  points : List Nat
deriving DecidableEq, Repr

/-- A `SEAM`: up to three splits and the width fields consulted by
`join_pieces`. -/
structure SeamRec where
  widthn : Int
  widthp : Int
  split1 : Option SplitRec
  split2 : Option SplitRec
  split3 : Option SplitRec
deriving DecidableEq, Repr

/-- The edge points a seam hides or reveals, with the early-return
cascade of `hide_seam`/`reveal_seam` (pieces.cpp lines 142-154 and
195-207): a missing `split1` stops everything, a missing `split2`
stops before `split3`. -/
def seamPoints (s : SeamRec) : List Nat :=
  match s.split1 with
  | none => []
  | some p1 =>
      p1.points ++
        (match s.split2 with
         | none => []
         | some p2 =>
             p2.points ++
               (match s.split3 with
                | none => []
                | some p3 => p3.points))

/-- `hide_edge` / `reveal_edge` on one edge point. -/
def setFlag (w : BlobWorld) (p : Nat) (b : Bool) : BlobWorld :=
  { w with hidden := fun i => if i = p then b else w.hidden i }

/-- Embedding of `hide_seam` (pieces.cpp lines 142-154): mark every
edge point of the seam's splits hidden. -/
def hide_seam (w : BlobWorld) (s : SeamRec) : BlobWorld :=
  (seamPoints s).foldl (fun w' p => setFlag w' p true) w

/-- Embedding of `reveal_seam` (pieces.cpp lines 195-207): mark every
edge point of the seam's splits visible. -/
def reveal_seam (w : BlobWorld) (s : SeamRec) : BlobWorld :=
  (seamPoints s).foldl (fun w' p => setFlag w' p false) w

/-- The `while (outline->next) outline = outline->next;` walk of
`join_pieces`: the last outline of the chain out of `o`, with explicit
fuel standing in for the finiteness of the C pointer chain. -/
def lastOutline (w : BlobWorld) : Nat → Nat → Nat
  | 0, o => o
  | fuel + 1, o =>
      match w.onext o with
      | none => o
      | some o' => lastOutline w fuel o'

/-- The seam-hiding step of one `join_pieces` iteration (pieces.cpp
lines 123-125): seam `x` is hidden when its width fits inside
[start, end). -/
def joinHide (seams : List SeamRec) (start e x : Nat) (u : BlobWorld) : BlobWorld :=
  match seams.get? x with
  | none => u
  | some sm =>
      if (x : Int) - sm.widthn ≥ (start : Int) ∧
          (x : Int) + sm.widthp < (e : Int) then hide_seam u sm else u

/-- The chain-linking step of one `join_pieces` iteration (pieces.cpp
lines 126-129): the last outline of the joined chain headed at `h` is
pointed at the next blob's outline head. -/
def joinLink (h fuel x : Nat) (u : BlobWorld) : BlobWorld :=
  { u with onext := fun i =>
      if i = lastOutline u fuel h then (u.blobs.get? (x + 1)).join
      else u.onext i }

/-- The loop of `join_pieces` (pieces.cpp lines 122-132), with `count`
the remaining iterations `end - x`: hide seam `x` when its width fits,
then append the next blob's outline chain to the joined chain. -/
def joinGo (seams : List SeamRec) (h : Nat) (start e fuel : Nat) :
    BlobWorld → Nat → Nat → BlobWorld
  | w, _, 0 => w
  | w, x, count + 1 =>
      joinGo seams h start e fuel
        (joinLink h fuel x (joinHide seams start e x w)) (x + 1) count

/-- Embedding of `join_pieces` (pieces.cpp lines 108-133): walk to blob
`start`; a blob with no outlines returns immediately; otherwise run the
joining loop over x in [start, end). -/
def join_pieces (w : BlobWorld) (seams : List SeamRec) (start e fuel : Nat) :
    BlobWorld :=
  match w.blobs.get? start with
  | none => w
  | some none => w
  | some (some h) => joinGo seams h start e fuel w start (e - start)

/-- The reveal loop of `break_pieces` (pieces.cpp lines 84-85):
reveal seams x, x+1, ... for `count` seams. -/
def revealGo (seams : List SeamRec) : BlobWorld → Nat → Nat → BlobWorld
  | w, _, 0 => w
  | w, x, count + 1 =>
      let w1 :=
        match seams.get? x with
        | none => w
        | some sm => reveal_seam w sm
      revealGo seams w1 (x + 1) count

/-- The chain-cutting loop of `break_pieces` (pieces.cpp lines 89-98):
walk the joined chain; whenever the current outline's next pointer
equals the next blob's outline head, cut the link and move to that
blob.  `nbIdx` is the index of `next_blob`; fuel stands in for the
finiteness of the chain. -/
def cutGo : BlobWorld → Option Nat → Nat → Nat → BlobWorld
  | w, none, _, _ => w
  | w, some _, _, 0 => w
  | w, some o, nbIdx, fuel + 1 =>
      match w.blobs.get? nbIdx with
      | none => w
      | some nbHead =>
          if w.onext o = nbHead then
            let w' := { w with onext := fun i => if i = o then none else w.onext i }
            cutGo w' nbHead (nbIdx + 1) fuel
          else cutGo w (w.onext o) nbIdx fuel

/-- Embedding of `break_pieces` (pieces.cpp lines 79-99), called as in
`classify_piece` on the joined blob at index `start`: reveal the seams
of [start, end), then cut the joined chain back into per-blob chains. -/
def break_pieces (w : BlobWorld) (seams : List SeamRec) (start e fuel : Nat) :
    BlobWorld :=
  let w1 := revealGo seams w start (e - start)
  match w1.blobs.get? start with
  | none => w1
  | some headO => cutGo w1 headO (start + 1) fuel

/-- The links of an outline chain: successive `onext` pointers, the
final one pointing at `t`. -/
def linksTo (w : BlobWorld) : List Nat → Option Nat → Prop
  | [], _ => True
  | [a], t => w.onext a = t
  | a :: b :: r, t => w.onext a = some b ∧ linksTo w (b :: r) t

/-- The concatenation of the outline chains of blobs `a`..`a + k`. -/
def catC (C : Nat → List Nat) (a : Nat) : Nat → List Nat
  | 0 => C a
  | k + 1 => catC C a k ++ C (a + k + 1)

/-- The last outline id of a chain list (its `getLastD`). -/
def lastOf (l : List Nat) : Nat := l.getLastD 0

/-- Total outline count of the blobs `x`..`x + k - 1`. -/
def sumLen (C : Nat → List Nat) : Nat → Nat → Nat
  | _, 0 => 0
  | x, k + 1 => (C x).length + sumLen C (x + 1) k

/-- Membership in one of the seams of [a, b). -/
def inRangeSeam (seams : List SeamRec) (a b p : Nat) : Prop :=
  ∃ x sm, a ≤ x ∧ x < b ∧ seams.get? x = some sm ∧ p ∈ seamPoints sm

end TessCore

namespace TessCore

theorem compareNgram_swap (a : List Nat) : ∀ b, compareNgram a b = -compareNgram b a := by
  induction a with
  | nil => intro b; cases b <;> simp [compareNgram]
  | cons x xs ih =>
      intro b
      cases b with
      | nil => simp [compareNgram]
      | cons y ys =>
          simp only [compareNgram]
          rcases Nat.lt_trichotomy x y with h | h | h
          · simp [h, Nat.not_lt.mpr (Nat.le_of_lt h)]
          · simp [h, Nat.lt_irrefl, ih ys]
          · simp [h, Nat.not_lt.mpr (Nat.le_of_lt h)]

theorem add_sorted_mem (a x : AmbigSpec) : ∀ l, x ∈ add_sorted a l ↔ x = a ∨ x ∈ l := by
  intro l
  induction l with
  | nil => simp [add_sorted]
  | cons b t ih =>
      simp only [add_sorted]
      by_cases h : compare_ambig_specs a b < 0
      · simp [h]
      · simp only [if_neg h, List.mem_cons, ih]
        tauto

theorem add_sorted_head (a : AmbigSpec) (l : List AmbigSpec) :
    (add_sorted a l).head? = some a ∨ (add_sorted a l).head? = l.head? := by
  cases l with
  | nil => left; rfl
  | cons b t =>
      by_cases h : compare_ambig_specs a b < 0
      · left; simp [add_sorted, h]
      · right; simp [add_sorted, h]

theorem add_sorted_chain (a : AmbigSpec) :
    ∀ l, SortedSpecs l → SortedSpecs (add_sorted a l) := by
  intro l
  unfold SortedSpecs
  induction l with
  | nil => intro _; simp [add_sorted]
  | cons b t ih =>
      intro hs
      rw [List.chain'_cons'] at hs
      by_cases h : compare_ambig_specs a b < 0
      · rw [add_sorted, if_pos h, List.chain'_cons']
        refine ⟨?_, ?_⟩
        · intro y hy
          simp only [List.head?_cons, Option.mem_def, Option.some.injEq] at hy
          subst hy
          exact Int.le_of_lt h
        · rw [List.chain'_cons']; exact hs
      · rw [add_sorted, if_neg h, List.chain'_cons']
        refine ⟨?_, ih hs.2⟩
        intro y hy
        rcases add_sorted_head a t with hh | hh
        · rw [hh] at hy
          simp only [Option.mem_def, Option.some.injEq] at hy
          subst hy
          have hsw := compareNgram_swap a.wrong_ngram b.wrong_ngram
          unfold compare_ambig_specs at h ⊢
          omega
        · rw [hh] at hy
          exact hs.1 y hy

theorem takeIds_length (u : UNICHARSET) :
    ∀ (n : Nat) (toks : List String) (ids : List Nat) (rest : List String),
      takeIds u n toks = some (ids, rest) → ids.length = n := by
  intro n
  induction n with
  | zero =>
      intro toks ids rest h
      simp [takeIds] at h
      simp [h.1]
  | succ m ih =>
      intro toks ids rest h
      cases toks with
      | nil => simp [takeIds] at h
      | cons tok toks' =>
          rw [takeIds] at h
          by_cases hc : u.contains_unichar tok
          · rw [if_pos hc] at h
            cases hrec : takeIds u m toks' with
            | none => rw [hrec] at h; exact absurd h (by simp)
            | some pr =>
                obtain ⟨ids', rest'⟩ := pr
                rw [hrec] at h
                simp only [Option.some.injEq, Prod.mk.injEq] at h
                obtain ⟨h1, h2⟩ := h
                rw [← h1]
                simp [ih toks' ids' rest' hrec]
          · rw [if_neg hc] at h
            exact absurd h (by simp)

theorem parse_testIds_ne_nil (version : Int) (u : UNICHARSET)
    (tokens : List String) (r : ParsedRule)
    (h : parseAmbiguityLine version u tokens = some r) : r.testIds ≠ [] := by
  cases tokens with
  | nil => simp [parseAmbiguityLine] at h
  | cons t0 rest =>
      rw [parseAmbiguityLine] at h
      cases hsc : sscanfInt t0 with
      | none => rw [hsc] at h; exact absurd h (by simp)
      | some n =>
          simp only [hsc] at h
          by_cases h1 : n ≤ 0
          · rw [if_pos h1] at h; exact absurd h (by simp)
          · rw [if_neg h1] at h
            by_cases h2 : n > MAX_AMBIG_SIZE
            · rw [if_pos h2] at h; exact absurd h (by simp)
            · rw [if_neg h2] at h
              cases hti : takeIds u n.toNat rest with
              | none =>
                  simp only [hti] at h
                  exact absurd h (by simp)
              | some pr =>
                  obtain ⟨ids, rest1⟩ := pr
                  simp only [hti] at h
                  have hlen : ids.length = n.toNat := takeIds_length u _ _ _ _ hti
                  have hne : ids ≠ [] := by
                    intro hnil; rw [hnil] at hlen; simp at hlen; omega
                  cases rest1 with
                  | nil => simp at h
                  | cons t1 rest2 =>
                      cases hsc2 : sscanfInt t1 with
                      | none =>
                          simp only [hsc2] at h
                          exact absurd h (by simp)
                      | some m =>
                          simp only [hsc2] at h
                          by_cases h3 : m ≤ 0
                          · rw [if_pos h3] at h; exact absurd h (by simp)
                          · rw [if_neg h3] at h
                            by_cases h4 : m > MAX_AMBIG_SIZE
                            · rw [if_pos h4] at h; exact absurd h (by simp)
                            · rw [if_neg h4] at h
                              cases htr : takeRepl u m.toNat rest2 with
                              | none =>
                                  simp only [htr] at h
                                  exact absurd h (by simp)
                              | some pr2 =>
                                  obtain ⟨repl, rest3⟩ := pr2
                                  simp only [htr] at h
                                  by_cases h5 : version > 0
                                  · rw [if_pos h5] at h
                                    cases rest3 with
                                    | nil => simp at h
                                    | cons t2 rest4 =>
                                        cases hsc3 : sscanfInt t2 with
                                        | none =>
                                            simp only [hsc3] at h
                                            exact absurd h (by simp)
                                        | some ty =>
                                            simp only [hsc3, Option.some.injEq] at h
                                            rw [← h]
                                            exact hne
                                  · rw [if_neg h5] at h
                                    simp only [Option.some.injEq] at h
                                    rw [← h]
                                    exact hne

/-- Nonempty lists have their default-headed head as `head?`. -/
theorem head?_eq_headD {l : List Nat} (h : l ≠ []) : l.head? = some (l.headD 0) := by
  cases l with
  | nil => exact absurd rfl h
  | cons a t => rfl

theorem insertIntoTable_tableOk (table : Nat → List AmbigSpec)
    (testIds : List Nat) (rs : Nat) (replStr : String) (ty : Int)
    (u : UNICHARSET) (hok : tableOk table) (hne : testIds ≠ []) :
    tableOk (insertIntoTable table testIds rs replStr ty u).1 := by
  intro i
  simp only [insertIntoTable]
  by_cases hk : i = testIds.headD 0
  · constructor
    · intro s hs
      rw [if_pos hk] at hs
      rcases (add_sorted_mem _ s _).mp hs with hsa | hsmem
      · subst hsa
        simp only
        rw [head?_eq_headD hne, hk]
      · exact (hok i).1 s hsmem
    · rw [if_pos hk]
      exact add_sorted_chain _ _ (hok i).2
  · rw [if_neg hk]
    exact hok i

/-- Frame lemma: how `processRule` changes `replace_ambigs_`. -/
theorem processRule_replace_eq (useDef : Bool) (st : LoadState) (r : ParsedRule) :
    (processRule useDef st r).replace_ambigs_ =
      if r.rule_type = REPLACE_AMBIG then
        (insertIntoTable st.replace_ambigs_ r.testIds r.replPartSize r.replStr
          r.rule_type st.unicharset).1
      else st.replace_ambigs_ := by
  unfold processRule REPLACE_AMBIG DEFINITE_AMBIG
  by_cases hrep : r.rule_type = 1 <;>
    by_cases hdef : useDef = true ∧ r.testIds.length = 1 ∧ r.replPartSize = 1 ∧
        r.rule_type = 2 <;>
      simp [hrep, hdef]

/-- Frame lemma: how `processRule` changes `dang_ambigs_`. -/
theorem processRule_dang_eq (useDef : Bool) (st : LoadState) (r : ParsedRule) :
    (processRule useDef st r).dang_ambigs_ =
      if r.rule_type = REPLACE_AMBIG then st.dang_ambigs_
      else
        (insertIntoTable st.dang_ambigs_ r.testIds r.replPartSize r.replStr
          r.rule_type st.unicharset).1 := by
  unfold processRule REPLACE_AMBIG DEFINITE_AMBIG
  by_cases hrep : r.rule_type = 1 <;>
    by_cases hdef : useDef = true ∧ r.testIds.length = 1 ∧ r.replPartSize = 1 ∧
        r.rule_type = 2 <;>
      simp [hrep, hdef]

/-- The replacement id recorded in a constructed spec is the id of the
replacement string in the unicharset right after its insertion. -/
theorem insertIntoTable_cid (table : Nat → List AmbigSpec) (testIds : List Nat)
    (rs : Nat) (replStr : String) (ty : Int) (u : UNICHARSET) :
    (insertIntoTable table testIds rs replStr ty u).2.2.correct_ngram_id =
      (u.unichar_insert replStr).unichar_to_id replStr := rfl

theorem processLine_tablesOk (useDef : Bool) (version : Int)
    (st : LoadState) (line : List String) (h : tablesOk st) :
    tablesOk (processLine useDef version st line) := by
  rw [processLine]
  cases hp : parseAmbiguityLine version st.unicharset line with
  | none => exact h
  | some r =>
      have hne : r.testIds ≠ [] := parse_testIds_ne_nil _ _ _ _ hp
      constructor
      · rw [processRule_replace_eq]
        by_cases hrep : r.rule_type = REPLACE_AMBIG
        · rw [if_pos hrep]
          exact insertIntoTable_tableOk _ _ _ _ _ _ h.1 hne
        · rw [if_neg hrep]; exact h.1
      · rw [processRule_dang_eq]
        by_cases hrep : r.rule_type = REPLACE_AMBIG
        · rw [if_pos hrep]; exact h.2
        · rw [if_neg hrep]
          exact insertIntoTable_tableOk _ _ _ _ _ _ h.2 hne

theorem loadLines_tablesOk (useDef : Bool) (version : Int) :
    ∀ (lines : List (List String)) (st : LoadState), tablesOk st →
      tablesOk (loadLines useDef version st lines) := by
  intro lines
  induction lines with
  | nil => intro st h; exact h
  | cons l rest ih =>
      intro st h
      exact ih _ (processLine_tablesOk useDef version st l h)

theorem initLoadState_tablesOk (u : UNICHARSET) : tablesOk (initLoadState u) := by
  constructor <;> intro i <;>
    exact ⟨by intro s hs; simp [initLoadState] at hs,
           by simp [initLoadState, SortedSpecs]⟩

theorem processRule_placedOk (useDef : Bool) (st : LoadState) (r : ParsedRule) :
    placedOk useDef st r := by
  unfold placedOk
  by_cases hrep : r.rule_type = REPLACE_AMBIG
  · rw [if_pos hrep]
    refine ⟨?_, ?_⟩
    · intro k
      rw [processRule_dang_eq, if_pos hrep]
    · intro k
      rw [processRule_replace_eq, if_pos hrep]
      simp only [insertIntoTable]
  · rw [if_neg hrep]
    refine ⟨?_, ?_⟩
    · intro k
      rw [processRule_replace_eq, if_neg hrep]
    · intro k
      rw [processRule_dang_eq, if_neg hrep]
      simp only [insertIntoTable]

/-- C8: starting from the empty tables, after any sequence of processed
lines (hence after load completion and after every individual
insertion) every stored spec sits in the per-character list indexed by
the first unichar id of its wrong n-gram and each list is sorted under
`compare_ambig_specs`; moreover each rule's spec goes to
`replace_ambigs_` exactly for declared type `REPLACE_AMBIG` and to
`dang_ambigs_` otherwise. -/
theorem ambig_tables_indexed_sorted :
    (∀ (useDef : Bool) (version : Int) (u0 : UNICHARSET)
        (lines : List (List String)),
      tablesOk (loadLines useDef version (initLoadState u0) lines)) ∧
    (∀ (useDef : Bool) (st : LoadState) (r : ParsedRule),
      placedOk useDef st r) :=
  ⟨fun useDef version u0 lines =>
      loadLines_tablesOk useDef version lines _ (initLoadState_tablesOk u0),
   processRule_placedOk⟩

/-- C6: a 1-to-1 rule whose wrong unichar and replacement unichar agree
under `to_lower` gets spec type `CASE_AMBIG`, whatever type code the
rule declared. -/
theorem insert_case_override (table : Nat → List AmbigSpec) (u : UNICHARSET)
    (wrongId : Nat) (replStr : String) (declared : Int)
    (h : u.to_lower wrongId = u.to_lower (u.unichar_to_id replStr)) :
    (insertIntoTable table [wrongId] 1 replStr declared u).2.2.ambig_type =
      CASE_AMBIG := by
  simp [insertIntoTable, h]

/-- C6 witness: a concrete unicharset where ids 0 and 1 case-fold
together; the rule declared `DEFINITE_AMBIG` comes out `CASE_AMBIG`. -/
theorem insert_case_override_witness :
    (insertIntoTable (fun _ => [])
        [1] 1 "a" DEFINITE_AMBIG
        { chars := ["a", "A"], lower := fun i => if i = 1 then 0 else i,
          ngram_flags := [] }).2.2.ambig_type = CASE_AMBIG :=
  insert_case_override _ _ 1 "a" DEFINITE_AMBIG rfl

/-- C7: the definite-ambiguity side table gains an entry for a rule
exactly when the classifier flag is on, the rule is 1-to-1 and its
declared type is `DEFINITE_AMBIG`; the value appended under the single
wrong unichar id is the replacement's unichar id in the updated
unicharset. -/
theorem one_to_one_definite_cache (useDef : Bool) (st : LoadState)
    (r : ParsedRule) (k : Nat) :
    (processRule useDef st r).one_to_one_definite_ambigs_ k =
      if useDef = true ∧ r.testIds.length = 1 ∧ r.replPartSize = 1 ∧
          r.rule_type = DEFINITE_AMBIG ∧ k = r.testIds.headD 0 then
        st.one_to_one_definite_ambigs_ k ++
          [(st.unicharset.unichar_insert r.replStr).unichar_to_id r.replStr]
      else st.one_to_one_definite_ambigs_ k := by
  by_cases hdef : useDef = true ∧ r.testIds.length = 1 ∧ r.replPartSize = 1 ∧
      r.rule_type = DEFINITE_AMBIG
  · have hrep : ¬r.rule_type = REPLACE_AMBIG := by
      have h2 := hdef.2.2.2
      unfold DEFINITE_AMBIG at h2
      unfold REPLACE_AMBIG
      omega
    by_cases hk : k = r.testIds.headD 0
    · have hk' : k = r.testIds.head?.getD 0 := by simpa using hk
      rw [if_pos ⟨hdef.1, hdef.2.1, hdef.2.2.1, hdef.2.2.2, hk⟩]
      unfold processRule
      rw [if_neg hrep, if_pos hdef]
      simp [hk', hrep, insertIntoTable_cid]
    · have hk' : ¬k = r.testIds.head?.getD 0 := by simpa using hk
      rw [if_neg (fun hc => hk hc.2.2.2.2)]
      unfold processRule
      rw [if_neg hrep, if_pos hdef]
      simp [hk', hrep]
  · rw [if_neg (fun hc => hdef ⟨hc.1, hc.2.1, hc.2.2.1, hc.2.2.2.1⟩)]
    unfold processRule
    rw [if_neg hdef]
    by_cases hrep : r.rule_type = REPLACE_AMBIG <;> simp [hrep]

/-- C9: a line on which `ParseAmbiguityLine` fails is skipped: the load
state (both rule tables, the side table and the unicharset) after
processing the remaining lines is as if the malformed line were absent,
and processing continues with the next line. -/
theorem malformed_line_skipped (useDef : Bool) (version : Int)
    (st : LoadState) (line : List String) (rest : List (List String))
    (h : parseAmbiguityLine version st.unicharset line = none) :
    loadLines useDef version st (line :: rest) =
      loadLines useDef version st rest := by
  simp [loadLines, processLine, h]

/-- C9 witness: the line whose wrong-n-gram count token is "0" is
rejected (counts must be positive) and skipped. -/
theorem malformed_line_skipped_witness :
    loadLines true 1
      (initLoadState { chars := ["a"], lower := fun i => i, ngram_flags := [] })
      [["0"]] =
    loadLines true 1
      (initLoadState { chars := ["a"], lower := fun i => i, ngram_flags := [] })
      [] :=
  malformed_line_skipped true 1 _ ["0"] [] rfl

/-! ### Theorems about the fragment rating cache -/

theorem mem_triList (N : Nat) (p : Nat × Nat) :
    p ∈ triList N ↔ p.1 ≤ p.2 ∧ p.2 < N := by
  obtain ⟨s, e⟩ := p
  simp only [triList, List.mem_flatMap, List.mem_map, List.mem_range]
  constructor
  · rintro ⟨e', he', s', hs', heq⟩
    obtain ⟨rfl, rfl⟩ : s' = s ∧ e' = e := by
      constructor <;> [exact congrArg Prod.fst heq; exact congrArg Prod.snd heq]
    exact ⟨by omega, he'⟩
  · rintro ⟨h1, h2⟩
    exact ⟨e, h2, s, by omega, rfl⟩

theorem triList_length : ∀ N, (triList N).length * 2 = N * (N + 1) := by
  intro N
  induction N with
  | zero => rfl
  | succ n ih =>
      have hsplit : triList (n + 1) =
          triList n ++ (List.range (n + 1)).map (fun s => (s, n)) := by
        simp [triList, List.range_succ]
      rw [hsplit]
      simp only [List.length_append, List.length_map, List.length_range]
      have hexp : (n + 1) * (n + 1 + 1) = n * (n + 1) + 2 * (n + 1) := by ring
      omega

theorem get_piece_rating_step {α : Type} (classify : Nat → Nat → α)
    (st : PieceState α) (s e : Nat) (h : cacheInv st) :
    cacheInv (get_piece_rating classify st s e).2 ∧
    (∀ q, q ∈ (get_piece_rating classify st s e).2.calls ↔
      q = (s, e) ∨ q ∈ st.calls) := by
  cases hm : mget st.ratings (s, e) with
  | some c =>
      have hp : (s, e) ∈ st.calls := (h.2 (s, e)).mpr (by simp [hm])
      constructor
      · simpa [get_piece_rating, hm] using h
      · intro q
        simp only [get_piece_rating, hm]
        constructor
        · exact fun hq => Or.inr hq
        · rintro (rfl | hq)
          · exact hp
          · exact hq
  | none =>
      have hp : (s, e) ∉ st.calls := fun hc => by
        have := (h.2 (s, e)).mp hc
        rw [hm] at this
        exact absurd this (by simp)
      constructor
      · constructor
        · simp only [get_piece_rating, hm]
          refine List.Nodup.append h.1 (List.nodup_singleton _) ?_
          intro a ha hb
          rw [List.mem_singleton] at hb
          subst hb
          exact hp ha
        · intro q
          simp only [get_piece_rating, hm, List.mem_append, List.mem_singleton, mget]
          by_cases hq : (s, e) = q
          · simp [← hq]
          · simp only [if_neg hq]
            rw [← (h.2 q)]
            constructor
            · rintro (hql | rfl)
              · exact hql
              · exact absurd rfl hq
            · exact fun hql => Or.inl hql
      · intro q
        simp only [get_piece_rating, hm, List.mem_append, List.mem_singleton]
        tauto

theorem runRequests_inv {α : Type} (classify : Nat → Nat → α) :
    ∀ (rs : List (Nat × Nat)) (st : PieceState α), cacheInv st →
      cacheInv (runRequests classify st rs) ∧
      (∀ q, q ∈ (runRequests classify st rs).calls ↔ q ∈ rs ∨ q ∈ st.calls) := by
  intro rs
  induction rs with
  | nil =>
      intro st h
      refine ⟨h, fun q => ?_⟩
      have hred : runRequests classify st [] = st := rfl
      rw [hred]
      simp
  | cons p ps ih =>
      intro st h
      obtain ⟨hstep, hmem⟩ := get_piece_rating_step classify st p.1 p.2 h
      obtain ⟨hinv', hmem'⟩ := ih _ hstep
      have hred : runRequests classify st (p :: ps) =
          runRequests classify (get_piece_rating classify st p.1 p.2).2 ps := rfl
      rw [hred]
      refine ⟨hinv', fun q => ?_⟩
      rw [hmem' q]
      have := hmem q
      simp only [List.mem_cons]
      constructor
      · rintro (hq | hq)
        · exact Or.inl (Or.inr hq)
        · rcases (this.mp hq) with hq1 | hq2
          · exact Or.inl (Or.inl (by simpa using hq1))
          · exact Or.inr hq2
      · rintro ((rfl | hq) | hq)
        · exact Or.inr (this.mpr (Or.inl (by simp)))
        · exact Or.inl hq
        · exact Or.inr (this.mpr (Or.inr hq))

theorem emptyPieceState_inv (α : Type) : cacheInv (emptyPieceState α) := by
  constructor
  · simp [emptyPieceState]
  · intro p; simp [emptyPieceState, mget]

/-- C1: over any request sequence of one word's search, starting from
the all-`NOT_CLASSIFIED` matrix, the classifier is invoked at most once
per distinct (start, end) pair: the invocation trace is duplicate-free
and covers exactly the requested pairs, its length equals the number of
distinct requested pairs, and when every request lies in the upper
triangle of pairs start ≤ end < N it is bounded by N(N+1)/2; moreover any later call on
an already-requested pair returns the stored list and leaves the state
(hence the invocation count) unchanged. -/
theorem get_piece_rating_at_most_once (α : Type) (classify : Nat → Nat → α)
    (N : Nat) (rs : List (Nat × Nat))
    (hvalid : ∀ p ∈ rs, p ∈ triList N) :
    let final := runRequests classify (emptyPieceState α) rs
    final.calls.Nodup ∧
    (∀ p, p ∈ final.calls ↔ p ∈ rs) ∧
    final.calls.length = rs.dedup.length ∧
    final.calls.length ≤ N * (N + 1) / 2 ∧
    (∀ p ∈ rs, ∃ c, mget final.ratings p = some c ∧
      get_piece_rating classify final p.1 p.2 = (c, final)) := by
  obtain ⟨hinv, hmem⟩ :=
    runRequests_inv classify rs (emptyPieceState α) (emptyPieceState_inv α)
  set final := runRequests classify (emptyPieceState α) rs with hfinal
  have hmem' : ∀ p, p ∈ final.calls ↔ p ∈ rs := by
    intro p
    rw [hmem p]
    simp [emptyPieceState]
  have htofin : final.calls.toFinset = rs.toFinset := by
    apply Finset.ext
    intro p
    simp only [List.mem_toFinset]
    exact hmem' p
  have hcard : final.calls.length = rs.dedup.length := by
    calc final.calls.length = final.calls.toFinset.card :=
          (List.toFinset_card_of_nodup hinv.1).symm
      _ = rs.toFinset.card := by rw [htofin]
      _ = rs.dedup.length := List.card_toFinset rs
  refine ⟨hinv.1, hmem', hcard, ?_, ?_⟩
  · have hsub : final.calls.toFinset ⊆ (triList N).toFinset := by
      intro p hp
      rw [List.mem_toFinset] at hp ⊢
      exact hvalid p ((hmem' p).mp hp)
    have h1 : final.calls.length = final.calls.toFinset.card :=
      (List.toFinset_card_of_nodup hinv.1).symm
    have h2 : final.calls.toFinset.card ≤ (triList N).toFinset.card :=
      Finset.card_le_card hsub
    have h3 : (triList N).toFinset.card ≤ (triList N).length :=
      List.toFinset_card_le _
    have h4 := triList_length N
    omega
  · intro p hp
    obtain ⟨s, e⟩ := p
    have hc : (s, e) ∈ final.calls := (hmem' (s, e)).mpr hp
    have hsome := (hinv.2 (s, e)).mp hc
    cases hm : mget final.ratings (s, e) with
    | none => rw [hm] at hsome; exact absurd hsome (by simp)
    | some c =>
        refine ⟨c, rfl, ?_⟩
        simp [get_piece_rating, hm]

/-- C1 witness: three requests over two fragments, one repeated; two
classifier calls, both behaviours checked at the concrete state. -/
theorem get_piece_rating_at_most_once_witness :
    let final := runRequests (fun s e => 10 * s + e) (emptyPieceState Nat)
        [(0, 0), (0, 1), (0, 0)]
    final.calls.Nodup ∧
    (∀ p, p ∈ final.calls ↔ p ∈ [(0, 0), (0, 1), (0, 0)]) ∧
    final.calls.length = [(0, 0), (0, 1), (0, 0)].dedup.length ∧
    final.calls.length ≤ 2 * (2 + 1) / 2 ∧
    (∀ p ∈ [(0, 0), (0, 1), (0, 0)], ∃ c, mget final.ratings p = some c ∧
      get_piece_rating (fun s e => 10 * s + e) final p.1 p.2 = (c, final)) :=
  get_piece_rating_at_most_once Nat (fun s e => 10 * s + e) 2
    [(0, 0), (0, 1), (0, 0)] (by decide)

/-! ### Theorems about the hyphen continuation state -/

/-- C3 counterexample: on the transition stored-flag = true, argument =
false, with a word stored, the code RETAINS the stored state (and on the
transition false to false it clears it), contradicting the claim that
this is exactly the clearing transition and all others retain. -/
theorem reset_hyphen_vars_claim_false :
    (let d : DictHyphen :=
      { last_word_on_line_ := true,
        hyphen_word_ := some { unichar_ids := [3, 7], rating := 5 },
        hyphen_active_dawgs_ := [{ dawg_index := 1, ref := 2 }],
        hyphen_constraints_ := [{ dawg_index := 0, ref := 4 }] }
     (reset_hyphen_vars d false).hyphen_word_ =
        some { unichar_ids := [3, 7], rating := 5 } ∧
     (reset_hyphen_vars d false).hyphen_active_dawgs_ =
        [{ dawg_index := 1, ref := 2 }]) ∧
    (let d' : DictHyphen :=
      { last_word_on_line_ := false,
        hyphen_word_ := some { unichar_ids := [3, 7], rating := 5 },
        hyphen_active_dawgs_ := [{ dawg_index := 1, ref := 2 }],
        hyphen_constraints_ := [] }
     (reset_hyphen_vars d' false).hyphen_word_ = none) := by
  constructor
  · exact ⟨rfl, rfl⟩
  · rfl

/-- C3 (amended): `reset_hyphen_vars` RETAINS the stored continuation
state exactly on the transition where the stored flag is true and the
argument false; on every other combination it clears the state (deleting
`hyphen_word_` and clearing both vectors) whenever a word is stored, and
leaves an absent word absent; in every call `last_word_on_line_` is set
to the argument. -/
theorem reset_hyphen_vars_spec (d : DictHyphen) (b : Bool) :
    let d' := reset_hyphen_vars d b
    d'.last_word_on_line_ = b ∧
    (if d.last_word_on_line_ = true ∧ b = false then
      d'.hyphen_word_ = d.hyphen_word_ ∧
      d'.hyphen_active_dawgs_ = d.hyphen_active_dawgs_ ∧
      d'.hyphen_constraints_ = d.hyphen_constraints_
     else
      d'.hyphen_word_ = none ∧
      (d.hyphen_word_ ≠ none →
        d'.hyphen_active_dawgs_ = [] ∧ d'.hyphen_constraints_ = []) ∧
      (d.hyphen_word_ = none →
        d'.hyphen_active_dawgs_ = d.hyphen_active_dawgs_ ∧
        d'.hyphen_constraints_ = d.hyphen_constraints_)) := by
  refine ⟨rfl, ?_⟩
  by_cases h : d.last_word_on_line_ = true ∧ b = false
  · simp [reset_hyphen_vars, h]
  · cases hw : d.hyphen_word_ with
    | none => simp [reset_hyphen_vars, h, hw]
    | some w => simp [reset_hyphen_vars, h, hw]

/-- C3 amended-claim witness at a concrete state. -/
theorem reset_hyphen_vars_spec_witness :
    let d : DictHyphen :=
      { last_word_on_line_ := true,
        hyphen_word_ := some { unichar_ids := [1], rating := 0 },
        hyphen_active_dawgs_ := [],
        hyphen_constraints_ := [] }
    let d' := reset_hyphen_vars d false
    d'.last_word_on_line_ = false ∧
    (if d.last_word_on_line_ = true ∧ false = false then
      d'.hyphen_word_ = d.hyphen_word_ ∧
      d'.hyphen_active_dawgs_ = d.hyphen_active_dawgs_ ∧
      d'.hyphen_constraints_ = d.hyphen_constraints_
     else
      d'.hyphen_word_ = none ∧
      (d.hyphen_word_ ≠ none →
        d'.hyphen_active_dawgs_ = [] ∧ d'.hyphen_constraints_ = []) ∧
      (d.hyphen_word_ = none →
        d'.hyphen_active_dawgs_ = d.hyphen_active_dawgs_ ∧
        d'.hyphen_constraints_ = d.hyphen_constraints_)) :=
  reset_hyphen_vars_spec _ false

/-- C4: when a word is stored, `set_hyphen_word` overwrites the stored
candidate exactly when the new word's rating is strictly smaller; on
overwrite the stored word becomes the new word with its last unichar id
removed and both vectors are copied in; otherwise the whole state is
unchanged. -/
theorem set_hyphen_word_spec (d : DictHyphen) (w w0 : WERD_CHOICE)
    (ad cs : List DawgInfo) (h : d.hyphen_word_ = some w0) :
    let d' := set_hyphen_word d w ad cs
    if w.rating < w0.rating then
      d'.hyphen_word_ = some w.remove_last_unichar_id ∧
      d'.hyphen_active_dawgs_ = ad ∧
      d'.hyphen_constraints_ = cs
    else
      d' = d := by
  by_cases hr : w.rating < w0.rating
  · simp [set_hyphen_word, h, hr, show w0.rating > w.rating from hr]
  · have hr' : ¬w0.rating > w.rating := hr
    simp only [set_hyphen_word, h, if_neg hr, if_neg hr']
    rw [← h]

/-- C10: for a `NO_EDGE` reference, and for any reference on an
edge-free trie, the three read accessors return their fixed sentinels
(`NO_EDGE`, `false`, `INVALID_UNICHAR_ID`), for every possible node
vector, hence without consulting any edge record. -/
theorem trie_accessors_guard (t : Trie) (edge_ref : Int)
    (h : edge_ref = NO_EDGE ∨ t.num_edges_ = 0) :
    t.next_node edge_ref = NO_EDGE ∧
    t.end_of_word edge_ref = false ∧
    t.edge_letter edge_ref = INVALID_UNICHAR_ID := by
  refine ⟨?_, ?_, ?_⟩ <;>
    simp only [Trie.next_node, Trie.end_of_word, Trie.edge_letter, if_pos h]

/-- C10 witness: the sentinels at a concrete trie that does have node
content, with the `NO_EDGE` reference. -/
theorem trie_accessors_guard_witness :
    ((Trie.empty 100 5).add_word_to_dawg [3]).next_node NO_EDGE = NO_EDGE ∧
    ((Trie.empty 100 5).add_word_to_dawg [3]).end_of_word NO_EDGE = false ∧
    ((Trie.empty 100 5).add_word_to_dawg [3]).edge_letter NO_EDGE =
      INVALID_UNICHAR_ID :=
  trie_accessors_guard _ NO_EDGE (Or.inl rfl)

/-- Auxiliary: marking a word ending never changes the edge count. -/
theorem addWordEnding_num_edges (t : Trie) (node i : Nat) :
    (t.addWordEnding node i).num_edges_ = t.num_edges_ := rfl

/-- Auxiliary: a raw word insertion adds at most two edges (one forward,
one backward) per character of the word. -/
theorem addWordRaw_num_edges_le (w : List Int) :
    ∀ (t : Trie) (node : Nat),
      (t.addWordRaw node w).num_edges_ ≤ t.num_edges_ + 2 * w.length := by
  induction w with
  | nil => intro t node; simp [Trie.addWordRaw]
  | cons c rest ih =>
      intro t node
      cases rest with
      | nil =>
          cases hf : t.findForward node c with
          | some i => simp [Trie.addWordRaw, hf, addWordEnding_num_edges]
          | none =>
              simp only [Trie.addWordRaw, hf]
              simp [Trie.addNewEdge, Trie.newNode, Trie.modifyNode]
      | cons c2 rest2 =>
          cases hf : t.findForward node c with
          | some i =>
              simp only [Trie.addWordRaw, hf]
              calc (Trie.addWordRaw t (t.forwardTarget node i) (c2 :: rest2)).num_edges_
                  ≤ t.num_edges_ + 2 * (c2 :: rest2).length := ih t _
                _ ≤ t.num_edges_ + 2 * (c :: c2 :: rest2).length := by
                    simp only [List.length_cons]; omega
          | none =>
              simp only [Trie.addWordRaw, hf]
              have h2 : ((t.newNode.1).addNewEdge node t.newNode.2 false c).num_edges_ =
                  t.num_edges_ + 2 := by
                simp [Trie.addNewEdge, Trie.newNode, Trie.modifyNode]
              calc (Trie.addWordRaw _ _ (c2 :: rest2)).num_edges_
                  ≤ ((t.newNode.1).addNewEdge node t.newNode.2 false c).num_edges_ +
                      2 * (c2 :: rest2).length := ih _ _
                _ ≤ t.num_edges_ + 2 * (c :: c2 :: rest2).length := by
                    rw [h2]; simp only [List.length_cons]; omega

/-- C2 counterexample: with an edge budget of 1, inserting the
one-letter word (unichar id 5) leaves the trie with 2 edges (the
forward and backward edge of the letter), exceeding the configured
maximum, so the edge count is NOT bounded by `max_num_edges_`. -/
theorem add_word_budget_claim_false :
    ((Trie.empty 1 5).add_word_to_dawg [5]).num_edges_ = 2 ∧
    ¬((Trie.empty 1 5).add_word_to_dawg [5]).num_edges_ ≤
        (Trie.empty 1 5).max_num_edges_ := by
  decide

/-- C2 (amended): word insertion always returns normally; if the
insertion would leave more edges than `max_num_edges_`, all edges are
cleared and the word is inserted into the emptied trie, so the edge
count after any insertion never exceeds the larger of the configured
maximum and the edge cost of the inserted word alone (two edges per
character). -/
theorem add_word_to_dawg_bounded (t : Trie) (w : List Int) :
    (t.add_word_to_dawg w).num_edges_ ≤
      Nat.max t.max_num_edges_ (2 * w.length) := by
  unfold Trie.add_word_to_dawg
  by_cases h : (t.addWordRaw 0 w).num_edges_ > t.max_num_edges_
  · simp only [if_pos h]
    calc ((Trie.empty t.max_num_edges_ t.flag_start_bit_).addWordRaw 0 w).num_edges_
        ≤ (Trie.empty t.max_num_edges_ t.flag_start_bit_).num_edges_ + 2 * w.length :=
          addWordRaw_num_edges_le w _ 0
      _ = 2 * w.length := Nat.zero_add _
      _ ≤ Nat.max t.max_num_edges_ (2 * w.length) := Nat.le_max_right _ _
  · simp only [if_neg h]
    exact Nat.le_trans (Nat.le_of_not_lt h) (Nat.le_max_left _ _)

/-- C4 witness: concrete no-overwrite and structure at a concrete input. -/
theorem set_hyphen_word_spec_witness :
    let d : DictHyphen :=
      { last_word_on_line_ := false,
        hyphen_word_ := some { unichar_ids := [2], rating := 1 },
        hyphen_active_dawgs_ := [{ dawg_index := 9, ref := 9 }],
        hyphen_constraints_ := [] }
    let w : WERD_CHOICE := { unichar_ids := [5, 6], rating := 4 }
    if w.rating < (1 : Int) then
      (set_hyphen_word d w [] []).hyphen_word_ = some w.remove_last_unichar_id ∧
      (set_hyphen_word d w [] []).hyphen_active_dawgs_ = [] ∧
      (set_hyphen_word d w [] []).hyphen_constraints_ = []
    else
      set_hyphen_word d w [] [] = d :=
  set_hyphen_word_spec _ _ { unichar_ids := [2], rating := 1 } [] [] rfl

/-! ### Lemmas about hide/reveal and outline chains -/

theorem foldl_setFlag_hidden (b : Bool) :
    ∀ (ps : List Nat) (u : BlobWorld) (q : Nat),
      ((ps.foldl (fun w' p => setFlag w' p b) u)).hidden q =
        if q ∈ ps then b else u.hidden q := by
  intro ps
  induction ps with
  | nil => intro u q; simp
  | cons p ps ih =>
      intro u q
      rw [List.foldl_cons, ih]
      by_cases hq : q ∈ ps
      · simp [hq]
      · by_cases hqp : q = p
        · simp [hq, hqp, setFlag]
        · simp [hq, hqp, setFlag]

theorem foldl_setFlag_onext (b : Bool) :
    ∀ (ps : List Nat) (u : BlobWorld),
      ((ps.foldl (fun w' p => setFlag w' p b) u)).onext = u.onext := by
  intro ps
  induction ps with
  | nil => intro u; rfl
  | cons p ps ih => intro u; rw [List.foldl_cons, ih]; rfl

theorem foldl_setFlag_blobs (b : Bool) :
    ∀ (ps : List Nat) (u : BlobWorld),
      ((ps.foldl (fun w' p => setFlag w' p b) u)).blobs = u.blobs := by
  intro ps
  induction ps with
  | nil => intro u; rfl
  | cons p ps ih => intro u; rw [List.foldl_cons, ih]; rfl

theorem hide_seam_hidden (u : BlobWorld) (sm : SeamRec) (q : Nat) :
    (hide_seam u sm).hidden q = if q ∈ seamPoints sm then true else u.hidden q :=
  foldl_setFlag_hidden true (seamPoints sm) u q

theorem reveal_seam_hidden (u : BlobWorld) (sm : SeamRec) (q : Nat) :
    (reveal_seam u sm).hidden q = if q ∈ seamPoints sm then false else u.hidden q :=
  foldl_setFlag_hidden false (seamPoints sm) u q

theorem linksTo_ext {u v : BlobWorld} (h : ∀ i, u.onext i = v.onext i) :
    ∀ (l : List Nat) (t : Option Nat), linksTo u l t → linksTo v l t := by
  intro l
  induction l with
  | nil => intro t _; trivial
  | cons a l ih =>
      intro t hl
      cases l with
      | nil =>
          show v.onext a = t
          rw [← h a]
          exact hl
      | cons c r =>
          refine ⟨?_, ih t hl.2⟩
          rw [← h a]
          exact hl.1

theorem linksTo_congr {u v : BlobWorld} :
    ∀ (l : List Nat), (∀ i ∈ l, u.onext i = v.onext i) →
      ∀ (t : Option Nat), linksTo u l t → linksTo v l t := by
  intro l
  induction l with
  | nil => intro _ t _; trivial
  | cons a l ih =>
      intro h t hl
      cases l with
      | nil =>
          show v.onext a = t
          rw [← h a (by simp)]
          exact hl
      | cons c r =>
          refine ⟨?_, ih (fun i hi => h i (by simp [hi])) t hl.2⟩
          rw [← h a (by simp)]
          exact hl.1

theorem linksTo_append {u : BlobWorld} :
    ∀ (l1 : List Nat) (b : Nat) (r : List Nat) (t : Option Nat),
      linksTo u l1 (some b) → linksTo u (b :: r) t →
      linksTo u (l1 ++ b :: r) t := by
  intro l1
  induction l1 with
  | nil => intro b r t _ h2; exact h2
  | cons a l1 ih =>
      intro b r t h1 h2
      cases l1 with
      | nil => exact ⟨h1, h2⟩
      | cons c l1' =>
          rw [List.cons_append, List.cons_append]
          exact ⟨h1.1, ih b r t h1.2 h2⟩

theorem linksTo_suffix {u : BlobWorld} :
    ∀ (pre l : List Nat) (t : Option Nat), linksTo u (pre ++ l) t → linksTo u l t := by
  intro pre
  induction pre with
  | nil => intro l t h; exact h
  | cons a pre ih =>
      intro l t h
      rw [List.cons_append] at h
      apply ih
      cases hpl : pre ++ l with
      | nil => trivial
      | cons c r =>
          rw [hpl] at h
          exact h.2

theorem lastOf_cons_cons (a b : Nat) (r : List Nat) :
    lastOf (a :: b :: r) = lastOf (b :: r) := by
  simp [lastOf, List.getLastD_cons]

theorem lastOf_mem : ∀ (l : List Nat), l ≠ [] → lastOf l ∈ l := by
  intro l
  induction l with
  | nil => intro h; exact absurd rfl h
  | cons a l ih =>
      intro _
      cases l with
      | nil => simp [lastOf]
      | cons b r =>
          rw [lastOf_cons_cons]
          exact List.mem_cons_of_mem a (ih (by simp))

theorem lastOf_append (l1 : List Nat) :
    ∀ (l2 : List Nat), l2 ≠ [] → lastOf (l1 ++ l2) = lastOf l2 := by
  intro l2 h2
  simp only [lastOf, List.getLastD_eq_getLast?, List.getLast?_append_of_ne_nil l1 h2]

theorem linksTo_getLast {u : BlobWorld} :
    ∀ (l : List Nat), l ≠ [] → linksTo u l none → u.onext (lastOf l) = none := by
  intro l
  induction l with
  | nil => intro h; exact absurd rfl h
  | cons a l ih =>
      intro _ hl
      cases l with
      | nil => simpa [lastOf] using hl
      | cons b r =>
          rw [lastOf_cons_cons]
          exact ih (by simp) hl.2

theorem linksTo_update_getLast {u : BlobWorld} (v : Option Nat) :
    ∀ (l : List Nat), l ≠ [] → l.Nodup → linksTo u l none →
      linksTo { u with onext := fun i => if i = lastOf l then v else u.onext i } l v := by
  intro l
  induction l with
  | nil => intro h; exact absurd rfl h
  | cons a l ih =>
      intro _ hnd hl
      cases l with
      | nil => simp [linksTo, lastOf]
      | cons b r =>
          have hne : a ≠ lastOf (a :: b :: r) := by
            intro heq
            have hm : lastOf (a :: b :: r) ∈ b :: r := by
              rw [lastOf_cons_cons]
              exact lastOf_mem (b :: r) (by simp)
            rw [← heq] at hm
            exact (List.nodup_cons.mp hnd).1 hm
          have hlast : lastOf (a :: b :: r) = lastOf (b :: r) := lastOf_cons_cons a b r
          constructor
          · show (if a = lastOf (a :: b :: r) then v else u.onext a) = some b
            rw [if_neg hne]
            exact hl.1
          · have h2 := ih (by simp) (List.nodup_cons.mp hnd).2 hl.2
            exact linksTo_ext (fun i => by simp [hlast]) (b :: r) v h2

theorem linksTo_update_not_mem {u : BlobWorld} (j : Nat) (v : Option Nat) :
    ∀ (l : List Nat) (t : Option Nat), j ∉ l → linksTo u l t →
      linksTo { u with onext := fun i => if i = j then v else u.onext i } l t := by
  intro l t hj hl
  apply linksTo_congr l _ t hl
  intro i hi
  have : i ≠ j := fun h => hj (h ▸ hi)
  simp [this]

theorem lastOutline_spec {u : BlobWorld} :
    ∀ (l : List Nat) (a : Nat) (fuel : Nat), linksTo u (a :: l) none →
      l.length ≤ fuel → lastOutline u fuel a = lastOf (a :: l) := by
  intro l
  induction l with
  | nil =>
      intro a fuel hl _
      have ha : u.onext a = none := hl
      cases fuel with
      | zero => simp [lastOutline, lastOf]
      | succ f => simp [lastOutline, ha, lastOf]
  | cons b r ih =>
      intro a fuel hl hf
      cases fuel with
      | zero => simp at hf
      | succ f =>
          rw [lastOutline, hl.1, lastOf_cons_cons]
          exact ih b f hl.2 (by simpa using hf)

theorem mem_catC (C : Nat → List Nat) (s : Nat) :
    ∀ (k : Nat) (a : Nat), a ∈ catC C s k ↔ ∃ j, j ≤ k ∧ a ∈ C (s + j) := by
  intro k
  induction k with
  | zero =>
      intro a
      simp only [catC]
      constructor
      · intro h; exact ⟨0, Nat.le_refl 0, by simpa using h⟩
      · rintro ⟨j, hj, hm⟩
        obtain rfl : j = 0 := Nat.le_zero.mp hj
        simpa using hm
  | succ k ih =>
      intro a
      simp only [catC, List.mem_append, ih]
      constructor
      · rintro (⟨j, hj, hm⟩ | hm)
        · exact ⟨j, Nat.le_succ_of_le hj, hm⟩
        · exact ⟨k + 1, Nat.le_refl _, by simpa [Nat.add_assoc] using hm⟩
      · rintro ⟨j, hj, hm⟩
        by_cases hjk : j ≤ k
        · exact Or.inl ⟨j, hjk, hm⟩
        · obtain rfl : j = k + 1 := by omega
          exact Or.inr (by simpa [Nat.add_assoc] using hm)

theorem catC_ne_nil (C : Nat → List Nat) (s : Nat) (hs : C s ≠ []) :
    ∀ (k : Nat), catC C s k ≠ [] := by
  intro k
  induction k with
  | zero => exact hs
  | succ k ih => simp only [catC]; simp [ih]

theorem catC_head (C : Nat → List Nat) (s : Nat) (hs : C s ≠ []) :
    ∀ (k : Nat), (catC C s k).head? = (C s).head? := by
  intro k
  induction k with
  | zero => rfl
  | succ k ih =>
      simp only [catC]
      cases hc : catC C s k with
      | nil => exact absurd hc (catC_ne_nil C s hs k)
      | cons x xs => rw [← ih, hc]; rfl

theorem catC_lastOf (C : Nat → List Nat) (s : Nat) (k : Nat)
    (h : C (s + k + 1) ≠ []) :
    lastOf (catC C s (k + 1)) = lastOf (C (s + k + 1)) := by
  simp only [catC]
  exact lastOf_append _ _ h

theorem catC_length_ge (C : Nat → List Nat) (s : Nat) :
    ∀ k j, j ≤ k → (C (s + j)).length ≤ (catC C s k).length := by
  intro k
  induction k with
  | zero =>
      intro j hj
      obtain rfl : j = 0 := Nat.le_zero.mp hj
      simp [catC]
  | succ k ih =>
      intro j hj
      by_cases hjk : j ≤ k
      · calc (C (s + j)).length ≤ (catC C s k).length := ih j hjk
          _ ≤ (catC C s (k + 1)).length := by simp [catC]
      · obtain rfl : j = k + 1 := by omega
        simp [catC, Nat.add_assoc]

theorem catC_nodup (C : Nat → List Nat) (s : Nat) :
    ∀ (k : Nat),
      (∀ j, j ≤ k → (C (s + j)).Nodup) →
      (∀ j1 j2, j1 ≤ k → j2 ≤ k → j1 ≠ j2 →
        ∀ a, a ∈ C (s + j1) → a ∈ C (s + j2) → False) →
      (catC C s k).Nodup := by
  intro k
  induction k with
  | zero => intro hnd _; simpa [catC] using hnd 0 (Nat.le_refl 0)
  | succ k ih =>
      intro hnd hdj
      simp only [catC]
      refine List.Nodup.append ?_ ?_ ?_
      · exact ih (fun j hj => hnd j (Nat.le_succ_of_le hj))
          (fun j1 j2 h1 h2 => hdj j1 j2 (Nat.le_succ_of_le h1) (Nat.le_succ_of_le h2))
      · simpa [Nat.add_assoc] using hnd (k + 1) (Nat.le_refl _)
      · intro a ha hb
        obtain ⟨j, hj, hm⟩ := (mem_catC C s k a).mp ha
        exact hdj j (k + 1) (Nat.le_succ_of_le hj) (Nat.le_refl _) (by omega) a hm
          (by simpa [Nat.add_assoc] using hb)

/-! ### The reveal phase of break_pieces -/

theorem revealGo_spec (seams : List SeamRec) :
    ∀ (count x : Nat) (u : BlobWorld),
      (revealGo seams u x count).onext = u.onext ∧
      (revealGo seams u x count).blobs = u.blobs ∧
      (∀ p, inRangeSeam seams x (x + count) p →
        (revealGo seams u x count).hidden p = false) ∧
      (∀ p, ¬inRangeSeam seams x (x + count) p →
        (revealGo seams u x count).hidden p = u.hidden p) := by
  intro count
  induction count with
  | zero =>
      intro x u
      refine ⟨rfl, rfl, ?_, fun p _ => rfl⟩
      intro p hp
      obtain ⟨x', sm, h1, h2, _, _⟩ := hp
      omega
  | succ k ih =>
      intro x u
      have hred : revealGo seams u x (k + 1) =
          revealGo seams
            (match seams.get? x with
             | none => u
             | some sm => reveal_seam u sm) (x + 1) k := rfl
      rw [hred]
      obtain ⟨ho, hb, hin, hout⟩ := ih (x + 1)
        (match seams.get? x with
         | none => u
         | some sm => reveal_seam u sm)
      have hw1onext : (match seams.get? x with
          | none => u
          | some sm => reveal_seam u sm).onext = u.onext := by
        cases seams.get? x with
        | none => rfl
        | some sm => exact foldl_setFlag_onext false (seamPoints sm) u
      have hw1blobs : (match seams.get? x with
          | none => u
          | some sm => reveal_seam u sm).blobs = u.blobs := by
        cases seams.get? x with
        | none => rfl
        | some sm => exact foldl_setFlag_blobs false (seamPoints sm) u
      refine ⟨ho.trans hw1onext, hb.trans hw1blobs, ?_, ?_⟩
      · intro p hp
        by_cases hlater : inRangeSeam seams (x + 1) (x + 1 + k) p
        · exact hin p hlater
        · obtain ⟨x', sm, ha, hbnd, hg, hm⟩ := hp
          have hx' : x' = x := by
            by_contra hne
            exact hlater ⟨x', sm, by omega, by omega, hg, hm⟩
          subst hx'
          rw [hout p hlater]
          simp only [hg]
          rw [reveal_seam_hidden, if_pos hm]
      · intro p hp
        have hlater : ¬inRangeSeam seams (x + 1) (x + 1 + k) p := by
          intro hl
          obtain ⟨x', sm, ha, hbnd, hg, hm⟩ := hl
          exact hp ⟨x', sm, by omega, by omega, hg, hm⟩
        rw [hout p hlater]
        cases hg : seams.get? x with
        | none => rfl
        | some sm =>
            have hm' : p ∉ seamPoints sm := fun hm =>
              hp ⟨x, sm, Nat.le_refl x, by omega, hg, hm⟩
            simp only [hg]
            rw [reveal_seam_hidden, if_neg hm']

/-! ### The joining loop -/

theorem joinHide_onext (seams : List SeamRec) (start e x : Nat) (u : BlobWorld) :
    (joinHide seams start e x u).onext = u.onext := by
  cases hg : seams.get? x with
  | none => simp only [joinHide, hg]
  | some sm =>
      simp only [joinHide, hg]
      by_cases hc : (x : Int) - sm.widthn ≥ (start : Int) ∧
          (x : Int) + sm.widthp < (e : Int)
      · rw [if_pos hc]
        exact foldl_setFlag_onext true (seamPoints sm) u
      · rw [if_neg hc]

theorem joinHide_blobs (seams : List SeamRec) (start e x : Nat) (u : BlobWorld) :
    (joinHide seams start e x u).blobs = u.blobs := by
  cases hg : seams.get? x with
  | none => simp only [joinHide, hg]
  | some sm =>
      simp only [joinHide, hg]
      by_cases hc : (x : Int) - sm.widthn ≥ (start : Int) ∧
          (x : Int) + sm.widthp < (e : Int)
      · rw [if_pos hc]
        exact foldl_setFlag_blobs true (seamPoints sm) u
      · rw [if_neg hc]

theorem joinHide_hidden (seams : List SeamRec) (start e x : Nat) (u : BlobWorld)
    (hx1 : start ≤ x) (hx2 : x < e) (p : Nat)
    (hp : ¬inRangeSeam seams start e p) :
    (joinHide seams start e x u).hidden p = u.hidden p := by
  cases hg : seams.get? x with
  | none => simp only [joinHide, hg]
  | some sm =>
      have hm : p ∉ seamPoints sm := fun hm => hp ⟨x, sm, hx1, hx2, hg, hm⟩
      simp only [joinHide, hg]
      by_cases hc : (x : Int) - sm.widthn ≥ (start : Int) ∧
          (x : Int) + sm.widthp < (e : Int)
      · rw [if_pos hc, hide_seam_hidden, if_neg hm]
      · rw [if_neg hc]

theorem joinLink_blobs (h fuel x : Nat) (u : BlobWorld) :
    (joinLink h fuel x u).blobs = u.blobs := rfl

theorem joinLink_hidden (h fuel x : Nat) (u : BlobWorld) :
    (joinLink h fuel x u).hidden = u.hidden := rfl

theorem catC_length_mono (C : Nat → List Nat) (s : Nat) :
    ∀ k1 k2, k1 ≤ k2 → (catC C s k1).length ≤ (catC C s k2).length := by
  intro k1 k2 h
  induction k2 with
  | zero =>
      obtain rfl : k1 = 0 := Nat.le_zero.mp h
      exact Nat.le_refl _
  | succ k ih =>
      by_cases hk : k1 ≤ k
      · calc (catC C s k1).length ≤ (catC C s k).length := ih hk
          _ ≤ (catC C s (k + 1)).length := by simp [catC]
      · obtain rfl : k1 = k + 1 := by omega
        exact Nat.le_refl _

theorem joinGo_spec
    (w : BlobWorld) (seams : List SeamRec) (C : Nat → List Nat)
    (h0 start e fuel : Nat)
    (hchain : ∀ i, start ≤ i → i ≤ e →
      C i ≠ [] ∧ w.blobs.get? i = some ((C i).head?) ∧
      linksTo w (C i) none ∧ (C i).Nodup)
    (hdisj : ∀ i j, start ≤ i → i ≤ e → start ≤ j → j ≤ e → i ≠ j →
      ∀ a, a ∈ C i → a ∈ C j → False)
    (hh0 : (C start).head? = some h0)
    (hfuel : (catC C start (e - start)).length ≤ fuel + 1) :
    ∀ (count x : Nat) (u : BlobWorld),
      x + count = e → start ≤ x →
      u.blobs = w.blobs →
      linksTo u (catC C start (x - start)) none →
      (∀ x', start ≤ x' → x' < x → u.onext (lastOf (C x')) = (C (x' + 1)).head?) →
      (∀ i, (∀ x', start ≤ x' → x' < x → i ≠ lastOf (C x')) → u.onext i = w.onext i) →
      (∀ p, ¬inRangeSeam seams start e p → u.hidden p = w.hidden p) →
      (joinGo seams h0 start e fuel u x count).blobs = w.blobs ∧
      (∀ x', start ≤ x' → x' < e →
        (joinGo seams h0 start e fuel u x count).onext (lastOf (C x')) =
          (C (x' + 1)).head?) ∧
      (∀ i, (∀ x', start ≤ x' → x' < e → i ≠ lastOf (C x')) →
        (joinGo seams h0 start e fuel u x count).onext i = w.onext i) ∧
      (∀ p, ¬inRangeSeam seams start e p →
        (joinGo seams h0 start e fuel u x count).hidden p = w.hidden p) := by
  intro count
  induction count with
  | zero =>
      intro x u hxe hsx hub hlink hB hO hH
      obtain rfl : x = e := by omega
      exact ⟨hub, fun x' h1 h2 => hB x' h1 h2, hO, hH⟩
  | succ c ih =>
      intro x u hxe hsx hub hlink hB hO hH
      have hxlt : x < e := by omega
      have hred : joinGo seams h0 start e fuel u x (c + 1) =
          joinGo seams h0 start e fuel
            (joinLink h0 fuel x (joinHide seams start e x u)) (x + 1) c := rfl
      rw [hred]
      -- facts about the chains involved
      obtain ⟨hCx_ne, hCx_blob, hCx_links, hCx_nd⟩ :=
        hchain x hsx (Nat.le_of_lt hxlt)
      obtain ⟨hCx1_ne, hCx1_blob, hCx1_links, hCx1_nd⟩ :=
        hchain (x + 1) (by omega) (by omega)
      set w1 := joinHide seams start e x u with hw1
      have hw1o : w1.onext = u.onext := joinHide_onext seams start e x u
      have hw1b : w1.blobs = w.blobs := by
        rw [hw1, joinHide_blobs]; exact hub
      -- the chain of already-joined outlines in w1
      have hlink1 : linksTo w1 (catC C start (x - start)) none :=
        linksTo_ext (fun i => (congrFun hw1o i).symm) _ _ hlink
      -- catC is nonempty and headed by h0
      have hcat_ne : catC C start (x - start) ≠ [] :=
        catC_ne_nil C start (hchain start (Nat.le_refl _) (by omega)).1 _
      have hcat_head : (catC C start (x - start)).head? = some h0 := by
        rw [catC_head C start (hchain start (Nat.le_refl _) (by omega)).1]
        exact hh0
      -- the last outline of the joined chain is the last of C x
      have hcat_last : lastOf (catC C start (x - start)) = lastOf (C x) := by
        rcases Nat.eq_or_lt_of_le hsx with heq | hlt
        · rw [← heq, Nat.sub_self]
          rfl
        · have hk : x - start = (x - start - 1) + 1 := by omega
          rw [hk]
          have hidx : start + (x - start - 1) + 1 = x := by omega
          rw [catC_lastOf C start (x - start - 1) (by rw [hidx]; exact hCx_ne)]
          rw [hidx]
      -- the computed lastOutline
      have hcat_cons : ∃ tl, catC C start (x - start) = h0 :: tl := by
        cases hc : catC C start (x - start) with
        | nil => exact absurd hc hcat_ne
        | cons a tl =>
            rw [hc] at hcat_head
            simp only [List.head?_cons, Option.some.injEq] at hcat_head
            exact ⟨tl, by rw [hcat_head]⟩
      obtain ⟨tl, htl⟩ := hcat_cons
      have hlastO : lastOutline w1 fuel h0 = lastOf (C x) := by
        rw [← hcat_last, htl]
        apply lastOutline_spec tl h0 fuel (htl ▸ hlink1)
        have hlen : (catC C start (x - start)).length ≤ fuel + 1 := by
          calc (catC C start (x - start)).length
              ≤ (catC C start (e - start)).length :=
                catC_length_mono C start _ _ (by omega)
            _ ≤ fuel + 1 := hfuel
        rw [htl] at hlen
        simpa using hlen
      -- the value written by the link step
      have hjoinval : ((w1.blobs.get? (x + 1)).join) = (C (x + 1)).head? := by
        rw [hw1b, hCx1_blob]
        rfl
      set w2 := joinLink h0 fuel x w1 with hw2
      have hw2o : w2.onext = fun i =>
          if i = lastOf (C x) then (C (x + 1)).head? else u.onext i := by
        rw [hw2, joinLink]
        funext i
        rw [hlastO, hjoinval, hw1o]
      have hw2b : w2.blobs = w.blobs := by
        rw [hw2, joinLink_blobs]; exact hw1b
      -- invariants for the recursive call at x + 1
      have hlastCx_mem : lastOf (C x) ∈ C x := lastOf_mem _ hCx_ne
      have hBnew : ∀ x', start ≤ x' → x' < x + 1 →
          w2.onext (lastOf (C x')) = (C (x' + 1)).head? := by
        intro x' h1 h2
        rcases Nat.lt_or_ge x' x with hlt | hge
        · have hne : lastOf (C x') ≠ lastOf (C x) := by
            intro heq
            exact hdisj x' x h1 (by omega) hsx (by omega) (by omega)
              (lastOf (C x)) (heq ▸ lastOf_mem _ (hchain x' h1 (by omega)).1)
              hlastCx_mem
          rw [congrFun hw2o _, if_neg hne]
          exact hB x' h1 hlt
        · obtain rfl : x' = x := by omega
          rw [congrFun hw2o _, if_pos rfl]
      have hOnew : ∀ i, (∀ x', start ≤ x' → x' < x + 1 → i ≠ lastOf (C x')) →
          w2.onext i = w.onext i := by
        intro i hi
        have hix : i ≠ lastOf (C x) := hi x hsx (by omega)
        rw [congrFun hw2o i, if_neg hix]
        exact hO i (fun x' h1 h2 => hi x' h1 (by omega))
      have hHnew : ∀ p, ¬inRangeSeam seams start e p →
          w2.hidden p = w.hidden p := by
        intro p hp
        have : w2.hidden = w1.hidden := by rw [hw2]; rfl
        rw [this, hw1, joinHide_hidden seams start e x u hsx hxlt p hp]
        exact hH p hp
      -- the extended chain
      have hlinknew : linksTo w2 (catC C start ((x + 1) - start)) none := by
        have hk : (x + 1) - start = (x - start) + 1 := by omega
        have hidx : start + (x - start) + 1 = x + 1 := by omega
        rw [hk]
        have hcat_eq : catC C start ((x - start) + 1) =
            catC C start (x - start) ++ C (x + 1) := by
          rw [catC]
          rw [hidx]
        rw [hcat_eq]
        -- chain of C (x+1) holds in w2
        have hCx1_w2 : linksTo w2 (C (x + 1)) none := by
          apply linksTo_congr (C (x + 1)) _ none hCx1_links
          intro i hi
          have hine : i ≠ lastOf (C x) := by
            intro heq
            exact hdisj (x + 1) x (by omega) (by omega) hsx (by omega) (by omega)
              i hi (heq ▸ hlastCx_mem)
          rw [congrFun hw2o i, if_neg hine]
          symm
          apply hO i
          intro x' h1 h2
          intro heq
          exact hdisj (x + 1) x' (by omega) (by omega) h1 (by omega) (by omega)
            i hi (heq ▸ lastOf_mem _ (hchain x' h1 (by omega)).1)
        -- joined chain now ends at the head of C (x+1)
        have hnodup_cat : (catC C start (x - start)).Nodup := by
          apply catC_nodup
          · intro j hj
            exact (hchain (start + j) (by omega) (by omega)).2.2.2
          · intro j1 j2 hj1 hj2 hne a ha1 ha2
            exact hdisj (start + j1) (start + j2) (by omega) (by omega)
              (by omega) (by omega) (by omega) a ha1 ha2
        obtain ⟨hx1hd, hx1tl, hx1eq⟩ : ∃ hd tlx, C (x + 1) = hd :: tlx := by
          cases hc : C (x + 1) with
          | nil => exact absurd hc hCx1_ne
          | cons a tlx => exact ⟨a, tlx, rfl⟩
        have hcatv : linksTo w2 (catC C start (x - start)) (some hx1hd) := by
          have hupd := linksTo_update_getLast (v := (C (x + 1)).head?)
            (catC C start (x - start)) hcat_ne hnodup_cat hlink1
          have hw2form : ∀ i, w2.onext i =
              (if i = lastOf (catC C start (x - start)) then (C (x + 1)).head?
               else w1.onext i) := by
            intro i
            rw [congrFun hw2o i, hcat_last, hw1o]
          have := linksTo_ext (u := { w1 with onext := (fun i =>
              if i = lastOf (catC C start (x - start)) then (C (x + 1)).head?
              else w1.onext i) })
            (fun i => (hw2form i).symm) _ _ hupd
          rw [hx1eq] at this
          simpa using this
        rw [hx1eq]
        apply linksTo_append _ _ _ _ hcatv
        rw [← hx1eq]
        exact hCx1_w2
      exact ih (x + 1) w2 (by omega) (by omega) hw2b hlinknew hBnew hOnew hHnew

/-! ### The chain-cutting loop of break_pieces -/

theorem cutGo_restore
    (w : BlobWorld) (C : Nat → List Nat) (start e : Nat)
    (hchain : ∀ i, start ≤ i → i ≤ e →
      C i ≠ [] ∧ w.blobs.get? i = some ((C i).head?) ∧
      linksTo w (C i) none ∧ (C i).Nodup)
    (hdisj : ∀ i j, start ≤ i → i ≤ e → start ≤ j → j ≤ e → i ≠ j →
      ∀ a, a ∈ C i → a ∈ C j → False)
    (hafter : ∀ h', w.blobs.get? (e + 1) = some (some h') →
      ∀ i, start ≤ i → i ≤ e → h' ∉ C i) :
    ∀ (fuel : Nat) (x : Nat) (l : List Nat) (u : BlobWorld),
      start ≤ x → x ≤ e →
      (∃ pre, C x = pre ++ l) → l ≠ [] →
      u.blobs = w.blobs →
      (∀ x', x ≤ x' → x' < e → u.onext (lastOf (C x')) = (C (x' + 1)).head?) →
      (∀ i, (∀ x', x ≤ x' → x' < e → i ≠ lastOf (C x')) → u.onext i = w.onext i) →
      l.length + sumLen C (x + 1) (e - x) + (e - x) + 1 ≤ fuel →
      (∀ i, (cutGo u (some (l.headD 0)) (x + 1) fuel).onext i = w.onext i) ∧
      (cutGo u (some (l.headD 0)) (x + 1) fuel).hidden = u.hidden ∧
      (cutGo u (some (l.headD 0)) (x + 1) fuel).blobs = u.blobs := by
  intro fuel
  induction fuel with
  | zero =>
      intro x l u _ _ _ _ _ _ _ hf
      omega
  | succ f ih =>
      intro x l u hsx hxe hsuf hlne hub hB hO hf
      obtain ⟨pre, hpre⟩ := hsuf
      obtain ⟨hCx_ne, hCx_blob, hCx_links, hCx_nd⟩ := hchain x hsx hxe
      cases l with
      | nil => exact absurd rfl hlne
      | cons o l' =>
          have hheadD : (o :: l').headD 0 = o := rfl
          rcases Nat.lt_or_ge x e with hxlt | hxge
          -- Case A: x < e, next_blob is blob x+1 of the joined range
          · obtain ⟨hCx1_ne, hCx1_blob, hCx1_links, hCx1_nd⟩ :=
              hchain (x + 1) (by omega) (by omega)
            have hbg : u.blobs.get? (x + 1) = some ((C (x + 1)).head?) := by
              rw [hub]; exact hCx1_blob
            obtain ⟨hd1, tl1, hC1eq⟩ : ∃ hd tl, C (x + 1) = hd :: tl := by
              cases hc : C (x + 1) with
              | nil => exact absurd hc hCx1_ne
              | cons a b => exact ⟨a, b, rfl⟩
            have hhd1 : (C (x + 1)).head? = some hd1 := by rw [hC1eq]; rfl
            cases l' with
            | nil =>
                -- l = [o]: o is the last outline of C x; cut here
                have holast : o = lastOf (C x) := by
                  rw [hpre, lastOf_append pre [o] (by simp)]
                  rfl
                have huo : u.onext o = some hd1 := by
                  rw [holast, hB x (Nat.le_refl x) hxlt, hhd1]
                have hred : cutGo u (some o) (x + 1) (f + 1) =
                    cutGo { u with onext := fun i => if i = o then none else u.onext i }
                      ((C (x + 1)).head?) (x + 2) f := by
                  simp only [cutGo, hbg, hhd1, huo, if_pos]
                rw [hheadD, hred]
                have hwnone : w.onext o = none := by
                  rw [holast]
                  exact linksTo_getLast (C x) hCx_ne hCx_links
                have hstep := ih (x + 1) (C (x + 1))
                  { u with onext := fun i => if i = o then none else u.onext i }
                  (by omega) (by omega) ⟨[], rfl⟩ hCx1_ne hub
                  ?_ ?_ ?_
                · rw [hC1eq] at hstep
                  have hh' : (hd1 :: tl1).headD 0 = hd1 := rfl
                  rw [hh'] at hstep
                  rw [hC1eq, ← List.head?_cons (a := hd1) (l := tl1)] at hhd1
                  have : (C (x + 1)).head? = some hd1 := by rw [hC1eq]; rfl
                  rw [this]
                  exact ⟨hstep.1, hstep.2.1, hstep.2.2⟩
                · -- remaining boundaries still linked
                  intro x' h1 h2
                  have hne : lastOf (C x') ≠ o := by
                    intro heq
                    have hm1 : lastOf (C x') ∈ C x' :=
                      lastOf_mem _ (hchain x' (by omega) (by omega)).1
                    have hm2 : o ∈ C x := holast ▸ lastOf_mem _ hCx_ne
                    exact hdisj x' x (by omega) (by omega) hsx hxe (by omega)
                      _ hm1 (heq ▸ hm2)
                  show (if lastOf (C x') = o then none else u.onext (lastOf (C x'))) =
                    (C (x' + 1)).head?
                  rw [if_neg hne]
                  exact hB x' (by omega) h2
                · -- everything else already restored
                  intro i hi
                  by_cases hio : i = o
                  · subst hio
                    show (if i = i then none else u.onext i) = w.onext i
                    rw [if_pos rfl, hwnone]
                  · show (if i = o then none else u.onext i) = w.onext i
                    rw [if_neg hio]
                    apply hO i
                    intro x' h1 h2
                    rcases Nat.eq_or_lt_of_le h1 with heq | hlt
                    · rw [← heq, ← holast]; exact hio
                    · exact hi x' (by omega) h2
                · -- fuel accounting
                  rw [show e - (x + 1) = e - x - 1 from by omega]
                  have hsum : sumLen C (x + 1) (e - x) =
                      (C (x + 1)).length + sumLen C (x + 1 + 1) (e - x - 1) := by
                    rw [show e - x = (e - x - 1) + 1 from by omega]
                    rfl
                  simp only [List.length_cons, List.length_nil] at hf
                  omega
            | cons o2 l'' =>
                -- l = o :: o2 :: l'': keep walking inside C x
                have hsufx : linksTo w (o :: o2 :: l'') none := by
                  rw [hpre] at hCx_links
                  exact linksTo_suffix pre _ none hCx_links
                have hwo : w.onext o = some o2 := hsufx.1
                have honot : o ∉ o2 :: l'' := by
                  have : (o :: o2 :: l'').Nodup := by
                    rw [hpre] at hCx_nd
                    exact List.Nodup.of_append_right hCx_nd
                  exact (List.nodup_cons.mp this).1
                have holast_ne : o ≠ lastOf (C x) := by
                  intro heq
                  have : lastOf (C x) ∈ o2 :: l'' := by
                    rw [hpre, lastOf_append pre _ (by simp), lastOf_cons_cons]
                    exact lastOf_mem _ (by simp)
                  rw [← heq] at this
                  exact honot this
                have huo : u.onext o = some o2 := by
                  rw [hO o ?_]
                  exact hwo
                  intro x' h1 h2
                  rcases Nat.eq_or_lt_of_le h1 with heq | hlt
                  · rw [← heq]; exact holast_ne
                  · intro heq
                    have hm1 : o ∈ C x := by rw [hpre]; simp
                    have hm2 : lastOf (C x') ∈ C x' :=
                      lastOf_mem _ (hchain x' (by omega) (by omega)).1
                    exact hdisj x x' hsx hxe (by omega) (by omega) (by omega)
                      o hm1 (heq ▸ hm2)
                have ho2ne : o2 ≠ hd1 := by
                  intro heq
                  have hm1 : o2 ∈ C x := by rw [hpre]; simp
                  have hm2 : hd1 ∈ C (x + 1) := by rw [hC1eq]; simp
                  exact hdisj x (x + 1) hsx hxe (by omega) (by omega) (by omega)
                    o2 hm1 (heq ▸ hm2)
                have hcond : ¬(u.onext o = (C (x + 1)).head?) := by
                  rw [huo, hhd1]
                  simp [ho2ne]
                have hred : cutGo u (some o) (x + 1) (f + 1) =
                    cutGo u (u.onext o) (x + 1) f := by
                  simp only [cutGo, hbg]
                  rw [if_neg ?_]
                  rw [hhd1]
                  rw [hhd1] at hcond
                  exact hcond
                rw [hheadD, hred, huo]
                have hstep := ih x (o2 :: l'') u hsx hxe
                  ⟨pre ++ [o], by rw [hpre, List.append_assoc]; rfl⟩ (by simp) hub hB hO
                  (by simp only [List.length_cons] at hf ⊢; omega)
                have hh' : (o2 :: l'').headD 0 = o2 := rfl
                rw [hh'] at hstep
                exact hstep
          -- Case B: x = e, next_blob is past the joined range
          · obtain rfl : e = x := by omega
            have hueq : ∀ i, u.onext i = w.onext i := by
              intro i
              apply hO i
              intro x' h1 h2
              omega
            cases hbg : u.blobs.get? (e + 1) with
            | none =>
                have hred : cutGo u (some o) (e + 1) (f + 1) = u := by
                  simp only [cutGo, hbg]
                rw [hheadD, hred]
                exact ⟨hueq, rfl, rfl⟩
            | some nbHead =>
                cases l' with
                | nil =>
                    have holast : o = lastOf (C e) := by
                      rw [hpre, lastOf_append pre [o] (by simp)]
                      rfl
                    have huo : u.onext o = none := by
                      rw [hueq, holast]
                      exact linksTo_getLast (C e) hCx_ne hCx_links
                    cases nbHead with
                    | none =>
                        have hred : cutGo u (some o) (e + 1) (f + 1) =
                            cutGo { u with onext := fun i =>
                              if i = o then none else u.onext i } none (e + 2) f := by
                          simp only [cutGo, hbg, huo, if_pos]
                        rw [hheadD, hred]
                        have hred2 : cutGo { u with onext := fun i =>
                            if i = o then none else u.onext i } none (e + 2) f =
                            { u with onext := fun i =>
                              if i = o then none else u.onext i } := by
                          cases f <;> rfl
                        rw [hred2]
                        refine ⟨?_, rfl, rfl⟩
                        intro i
                        by_cases hio : i = o
                        · subst hio
                          show (if i = i then none else u.onext i) = w.onext i
                          rw [if_pos rfl, ← hueq i, huo]
                        · show (if i = o then none else u.onext i) = w.onext i
                          rw [if_neg hio]
                          exact hueq i
                    | some h' =>
                        have hcond : ¬(u.onext o = some h') := by
                          rw [huo]; simp
                        have hred : cutGo u (some o) (e + 1) (f + 1) =
                            cutGo u (u.onext o) (e + 1) f := by
                          simp only [cutGo, hbg]
                          rw [if_neg hcond]
                        rw [hheadD, hred, huo]
                        have hred2 : cutGo u none (e + 1) f = u := by
                          cases f <;> rfl
                        rw [hred2]
                        exact ⟨hueq, rfl, rfl⟩
                | cons o2 l'' =>
                    have hsufx : linksTo w (o :: o2 :: l'') none := by
                      rw [hpre] at hCx_links
                      exact linksTo_suffix pre _ none hCx_links
                    have huo : u.onext o = some o2 := by
                      rw [hueq]
                      exact hsufx.1
                    have hcond : ¬(u.onext o = nbHead) := by
                      cases nbHead with
                      | none => rw [huo]; simp
                      | some h' =>
                          rw [huo]
                          simp only [Option.some.injEq]
                          intro heq
                          have hm1 : o2 ∈ C e := by rw [hpre]; simp
                          rw [hub] at hbg
                          exact hafter h' hbg e hsx (Nat.le_refl e) (heq ▸ hm1)
                    have hred : cutGo u (some o) (e + 1) (f + 1) =
                        cutGo u (u.onext o) (e + 1) f := by
                      simp only [cutGo, hbg]
                      rw [if_neg hcond]
                    rw [hheadD, hred, huo]
                    have hstep := ih e (o2 :: l'') u hsx (Nat.le_refl e)
                      ⟨pre ++ [o], by rw [hpre, List.append_assoc]; rfl⟩ (by simp) hub hB hO
                      (by simp only [List.length_cons] at hf ⊢; omega)
                    have hh' : (o2 :: l'').headD 0 = o2 := rfl
                    rw [hh'] at hstep
                    exact hstep

/-! ### The join/break round trip -/

/-- C5 counterexample: a seam edge point that is already hidden before
`join_pieces` is unconditionally revealed by `break_pieces`, so the
pair of calls does not restore the hidden flags on arbitrary initial
states: here point 7 starts hidden and ends revealed. -/
theorem join_break_claim_false :
    (break_pieces
        (join_pieces
          { onext := fun _ => none, hidden := fun p => p == 7,
            blobs := [some 0, some 1] }
          [{ widthn := 0, widthp := 0, split1 := some { points := [7] },
             split2 := none, split3 := none }] 0 1 5)
        [{ widthn := 0, widthp := 0, split1 := some { points := [7] },
           split2 := none, split3 := none }] 0 1 5).hidden 7 = false ∧
    ({ onext := fun _ => none, hidden := fun p => p == 7,
       blobs := [some 0, some 1] } : BlobWorld).hidden 7 = true := by
  exact ⟨rfl, rfl⟩

/-- C5 (amended): for every well-formed configuration — each fragment
of [start, end] owning a nonempty, NULL-terminated, duplicate-free
outline chain, chains pairwise disjoint, the following blob's outline
head (if any) outside those chains — and every seam list whose seams in
[start, end) reference only edge points that are un-hidden before the
call, `join_pieces` followed by `break_pieces` over the same seam list
and range is a round trip: every outline next pointer, every edge
point's hidden flag and the blob chain end up equal to their values
before `join_pieces`.  (The fuel bounds only say the chains are finite,
as the C pointer loops assume.) -/
theorem join_break_round_trip
    (w : BlobWorld) (seams : List SeamRec) (C : Nat → List Nat)
    (start e fuel : Nat)
    (hse : start ≤ e)
    (hchain : ∀ i, start ≤ i → i ≤ e →
      C i ≠ [] ∧ w.blobs.get? i = some ((C i).head?) ∧
      linksTo w (C i) none ∧ (C i).Nodup)
    (hdisj : ∀ i j, start ≤ i → i ≤ e → start ≤ j → j ≤ e → i ≠ j →
      ∀ a, a ∈ C i → a ∈ C j → False)
    (hafter : ∀ h', w.blobs.get? (e + 1) = some (some h') →
      ∀ i, start ≤ i → i ≤ e → h' ∉ C i)
    (hflags : ∀ p, inRangeSeam seams start e p → w.hidden p = false)
    (hfuel1 : (catC C start (e - start)).length ≤ fuel + 1)
    (hfuel2 : (C start).length + sumLen C (start + 1) (e - start) +
      (e - start) + 1 ≤ fuel) :
    let wb := break_pieces (join_pieces w seams start e fuel) seams start e fuel
    (∀ i, wb.onext i = w.onext i) ∧
    (∀ p, wb.hidden p = w.hidden p) ∧
    wb.blobs = w.blobs := by
  obtain ⟨hC0_ne, hC0_blob, hC0_links, hC0_nd⟩ :=
    hchain start (Nat.le_refl start) hse
  have hh0 : (C start).head? = some ((C start).headD 0) := head?_eq_headD hC0_ne
  have hbs : w.blobs.get? start = some (some ((C start).headD 0)) := by
    rw [hC0_blob, hh0]
  have hjoin : join_pieces w seams start e fuel =
      joinGo seams ((C start).headD 0) start e fuel w start (e - start) := by
    simp only [join_pieces, hbs]
  obtain ⟨hjb, hjB, hjO, hjH⟩ :=
    joinGo_spec w seams C ((C start).headD 0) start e fuel hchain hdisj hh0 hfuel1
      (e - start) start w (by omega) (Nat.le_refl start) rfl
      (by rw [Nat.sub_self]; exact hC0_links)
      (by intro x' h1 h2; omega)
      (by intro i _; rfl)
      (by intro p _; rfl)
  set wj := joinGo seams ((C start).headD 0) start e fuel w start (e - start)
    with hwj
  obtain ⟨hro, hrb, hrin, hrout⟩ := revealGo_spec seams (e - start) start wj
  set wr := revealGo seams wj start (e - start) with hwr
  have hwrb : wr.blobs = w.blobs := hrb.trans hjb
  have hbs2 : wr.blobs.get? start = some (some ((C start).headD 0)) := by
    rw [hwrb, hbs]
  have hbreak : break_pieces wj seams start e fuel =
      cutGo wr (some ((C start).headD 0)) (start + 1) fuel := by
    simp only [break_pieces, ← hwr, hbs2]
  obtain ⟨hcO, hcH, hcB⟩ :=
    cutGo_restore w C start e hchain hdisj hafter fuel start (C start) wr
      (Nat.le_refl start) hse ⟨[], rfl⟩ hC0_ne hwrb
      (by intro x' h1 h2
          rw [congrFun hro (lastOf (C x'))]
          exact hjB x' h1 h2)
      (by intro i hi
          rw [congrFun hro i]
          exact hjO i hi)
      hfuel2
  have hhd : (C start).headD 0 = (C start).headD 0 := rfl
  refine ⟨?_, ?_, ?_⟩
  · intro i
    rw [hjoin, hbreak]
    exact hcO i
  · intro p
    rw [hjoin, hbreak, congrFun hcH p]
    by_cases hp : inRangeSeam seams start e p
    · have hp' : inRangeSeam seams start (start + (e - start)) p := by
        obtain ⟨x', sm, h1, h2, h3, h4⟩ := hp
        exact ⟨x', sm, h1, by omega, h3, h4⟩
      rw [hrin p hp', hflags p hp]
    · have hp' : ¬inRangeSeam seams start (start + (e - start)) p := by
        intro hl
        obtain ⟨x', sm, h1, h2, h3, h4⟩ := hl
        exact hp ⟨x', sm, h1, by omega, h3, h4⟩
      rw [hrout p hp']
      exact hjH p hp
  · rw [hjoin, hbreak, hcB, hwrb]

/-- C5 witness: two one-outline fragments, one seam on an un-hidden
point; the round trip restores links, flags and blobs. -/
theorem join_break_round_trip_witness :
    let w : BlobWorld :=
      { onext := fun _ => none, hidden := fun _ => false,
        blobs := [some 0, some 1] }
    let seams : List SeamRec :=
      [{ widthn := 0, widthp := 0, split1 := some { points := [7] },
         split2 := none, split3 := none }]
    let wb := break_pieces (join_pieces w seams 0 1 5) seams 0 1 5
    (∀ i, wb.onext i = w.onext i) ∧
    (∀ p, wb.hidden p = w.hidden p) ∧
    wb.blobs = w.blobs := by
  apply join_break_round_trip
    (C := fun i => [i])
  · exact Nat.zero_le 1
  · intro i _ h1
    rcases Nat.le_one_iff_eq_zero_or_eq_one.mp h1 with rfl | rfl
    · exact ⟨by simp, rfl, rfl, by simp⟩
    · exact ⟨by simp, rfl, rfl, by simp⟩
  · intro i j _ hi _ hj hne a ha1 ha2
    simp only [List.mem_singleton] at ha1 ha2
    omega
  · intro h' hcontra
    simp at hcontra
  · intro p _
    rfl
  · decide
  · decide

end TessCore
